import Mathlib

/-!
# Verification of the Minesweeper rule engine

A shallow embedding of the core logic of the `Mahi/Minesweeper`
repository (`minesweeper/api.py` and `minesweeper/utilities.py`),
together with proofs of the behavioural properties of the grid access,
mine placement, and the recursive flood-fill reveal.

The Python grid is a two-dimensional list of mutable `Cell` objects;
here the state is an immutable `Minefield` value and every mutating
method becomes a function returning the new state.  Python's
`IndexError` behaviour of list indexing (negative indices wrap, other
out-of-range indices raise) is modelled by `pyIdx`; fallible methods
return `Except String`.  `random.shuffle` is modelled by passing the
shuffled list as an argument and quantifying over all permutations.
-/

set_option maxHeartbeats 2000000

namespace Minesweeper

/-- `VALUE_MINE` from `api.py`: sentinel value marking a mine cell. -/
def VALUE_MINE : Int := -1

/-- A single cell of the minefield (`Cell` in `api.py`). -/
structure Cell where
  value : Int
  flagged : Bool
  visible : Bool
deriving DecidableEq, Repr

/-- The minefield: a two-dimensional list of cells (rows of cells,
indexed `cells[y][x]`) plus the target mine count (`Minefield` in
`api.py`). -/
structure Minefield where
  cells : List (List Cell)
  n_mines : Nat
deriving DecidableEq, Repr

/-- Effective index of Python sequence indexing: non-negative indices
in range are used as-is, negative indices in range wrap around from the
end, anything else is an `IndexError` (`none`). -/
def pyIdx (n : Nat) (i : Int) : Option Nat :=
  if 0 ≤ i ∧ i < (n : Int) then some i.toNat
  else if -(n : Int) ≤ i ∧ i < 0 then some (i + (n : Int)).toNat
  else none

/-- Python list read `l[i]`. -/
def pyGet (l : List α) (i : Int) : Option α :=
  (pyIdx l.length i).bind l.get?

/-- `points_around_point` from `utilities.py`: the 8 points surrounding
`point`, in the source's iteration order (`x` outer loop, `y` inner
loop, the centre skipped). -/
def points_around_point (p : Int × Int) : List (Int × Int) :=
  [(p.1 - 1, p.2 - 1), (p.1 - 1, p.2), (p.1 - 1, p.2 + 1),
   (p.1, p.2 - 1), (p.1, p.2 + 1),
   (p.1 + 1, p.2 - 1), (p.1 + 1, p.2), (p.1 + 1, p.2 + 1)]

/-- Replace the `i`-th entry of a list by `f` of it (no-op when `i` is
out of range); used to model in-place mutation of one cell. -/
def listUpd (l : List α) (i : Nat) (f : α → α) : List α :=
  match l, i with
  | [], _ => []
  | a :: t, 0 => f a :: t
  | a :: t, n + 1 => a :: listUpd t n f

namespace Minefield

/-- `Minefield.__init__`: a `size.x × size.y` grid of `Cell(0)` cells
(`range` of a negative size is empty, hence `Int.toNat`). -/
def make (size : Int × Int) (n_mines : Nat) : Minefield :=
  { cells := List.replicate size.2.toNat (List.replicate size.1.toNat ⟨0, false, false⟩),
    n_mines := n_mines }

/-- `Minefield.width`: `len(self._cells[0])` (0 here for an empty grid,
where Python would raise). -/
def width (m : Minefield) : Nat := (m.cells.headD []).length

/-- `Minefield.height`: `len(self._cells)`. -/
def height (m : Minefield) : Nat := m.cells.length

/-- Total number of cell positions of the grid. -/
def totalCells (m : Minefield) : Nat := (m.cells.map List.length).sum

/-- Number of cells that are not yet visible. -/
def hiddenCount (m : Minefield) : Nat :=
  (m.cells.map fun row => row.countP fun c => !c.visible).sum

/-- `Minefield.__getitem__`: rejects coordinates with negative `x` or
`y` explicitly, then indexes the outer list with `y` and the row with
`x`; an out-of-range index raises `IndexError` from the lists. -/
def getItem (m : Minefield) (p : Int × Int) : Except String Cell :=
  if p.1 < 0 ∨ p.2 < 0 then .error "IndexError"
  else
    match pyGet m.cells p.2 with
    | none => .error "IndexError"
    | some row =>
      match pyGet row p.1 with
      | none => .error "IndexError"
      | some c => .ok c

/-- `Minefield.__setitem__`: `self._cells[y][x] = cell`, with no bounds
check of its own; each of the two Python list indexings wraps negative
in-range indices around and raises `IndexError` only when the index is
out of range on both ends. -/
def setItem (m : Minefield) (p : Int × Int) (c : Cell) : Except String Minefield :=
  match pyIdx m.cells.length p.2 with
  | none => .error "IndexError"
  | some yi =>
    match pyIdx (m.cells.getD yi []).length p.1 with
    | none => .error "IndexError"
    | some xi => .ok { m with cells := m.cells.set yi ((m.cells.getD yi []).set xi c) }

/-- `Minefield.iter_points`: every `(x, y)` index of the grid, row by
row (`y` outer, `x` over the row's length). -/
def iter_points (m : Minefield) : List (Int × Int) :=
  (List.range m.cells.length).flatMap fun y =>
    (List.range (m.cells.getD y []).length).map fun x => (Int.ofNat x, Int.ofNat y)

/-- `Minefield.cells_around_point`: the cells at the surrounding
points, skipping the points whose lookup raises `IndexError`. -/
def cells_around_point (m : Minefield) (p : Int × Int) : List Cell :=
  (points_around_point p).filterMap fun q => (m.getItem q).toOption

/-- `Minefield.count_mines_around_point`. -/
def count_mines_around_point (m : Minefield) (p : Int × Int) : Nat :=
  (m.cells_around_point p).countP fun c => c.value == VALUE_MINE

/-- `Minefield.count_flags_around_point`. -/
def count_flags_around_point (m : Minefield) (p : Int × Int) : Nat :=
  (m.cells_around_point p).countP fun c => c.flagged

/-- `Minefield.reset`: assigns a fresh `Cell(0)` through `__setitem__`
at every point of `iter_points`, i.e. at every position of every row. -/
def reset (m : Minefield) : Minefield :=
  { m with cells := m.cells.map fun row => row.map fun _ => ⟨0, false, false⟩ }

/-- `Minefield.init_mines` with `reset=True` (the default).  The result
of `random.shuffle` on `list(set(self.iter_points()) - restricted_points)`
is supplied as the `shuffled` argument (theorems quantify over every
permutation of the allowed points); `restricted` is the
`restricted_points` set as a list. -/
def init_mines (m : Minefield) (restricted shuffled : List (Int × Int)) :
    Except String Minefield := do
  let m0 := m.reset
  let mine_points := shuffled.take m0.n_mines
  let other_points := shuffled.drop m0.n_mines ++ restricted
  let m1 ← mine_points.foldlM (fun acc q => acc.setItem q ⟨VALUE_MINE, false, false⟩) m0
  other_points.foldlM
    (fun acc q => acc.setItem q ⟨(acc.count_mines_around_point q : Int), false, false⟩) m1

/-- The in-place mutation `cell.visible = True` that `reveal_cell_at`
performs on the cell fetched at `point` (only reached with `point`
in bounds and non-negative). -/
def set_visible (m : Minefield) (p : Int × Int) : Minefield :=
  { m with
    cells := listUpd m.cells p.2.toNat fun row =>
      listUpd row p.1.toNat fun c => { c with visible := true } }

/-- The recursive worker of `reveal_cell_at`: the body of the source
function with `recursive=True` (the recursive calls use the default),
with the `IndexError` of each neighbour's lookup swallowed, as the
source wraps every recursive call in `try/except IndexError`.  `fuel`
bounds the recursion depth; any `fuel` beyond the number of hidden
cells yields the same result (see `revealGo_fuel_irrelevant`). -/
def revealGo : Nat → Minefield → Int × Int → Minefield
  | 0, m, _ => m
  | fuel + 1, m, p =>
    match m.getItem p with
    | .error _ => m
    | .ok cell =>
      if cell.flagged ∨ cell.visible then m
      else
        let m' := m.set_visible p
        if cell.value = 0 then
          (points_around_point p).foldl (fun acc q => revealGo fuel acc q) m'
        else m'

/-- `Minefield.reveal_cell_at`.  The lookup of `point` itself is
outside any `try` block, so an out-of-bounds `point` propagates its
`IndexError` to the caller. -/
def reveal_cell_at (m : Minefield) (p : Int × Int) (recursive : Bool) :
    Except String Minefield :=
  match m.getItem p with
  | .error e => .error e
  | .ok cell =>
    if cell.flagged ∨ cell.visible then .ok m
    else
      let m' := m.set_visible p
      if cell.value = 0 ∧ recursive = true then
        .ok ((points_around_point p).foldl (fun acc q => revealGo m.totalCells acc q) m')
      else .ok m'

/-- Modelled from the spec: `Minefield.is_fully_revealed` is invoked by
the game loop (`main.py`, win check after a reveal) but its definition
is missing from `api.py`.  Spec: "true iff every non-mine cell is
visible". -/
def is_fully_revealed (m : Minefield) : Bool :=
  m.cells.all fun row => row.all fun c => c.value == VALUE_MINE || c.visible

/-- The grid is rectangular with the given dimensions. -/
def rect (m : Minefield) (w h : Nat) : Prop :=
  m.cells.length = h ∧ ∀ row ∈ m.cells, row.length = w

/-- The point is inside the grid (its lookup succeeds). -/
def inB (m : Minefield) (q : Int × Int) : Bool :=
  match m.getItem q with
  | .ok _ => true
  | .error _ => false

/-- The cell at `q` is visible; out-of-bounds points count as visible
(nothing there is left to reveal). -/
def visB (m : Minefield) (q : Int × Int) : Bool :=
  match m.getItem q with
  | .ok c => c.visible
  | .error _ => true

/-- The cell at `q` is flagged (out-of-bounds: `false`). -/
def flagB (m : Minefield) (q : Int × Int) : Bool :=
  match m.getItem q with
  | .ok c => c.flagged
  | .error _ => false

/-- In-bounds cell with value `0`. -/
def zeroB (m : Minefield) (q : Int × Int) : Bool :=
  match m.getItem q with
  | .ok c => c.value == 0
  | .error _ => false

/-- In-bounds cell holding the mine sentinel. -/
def mineB (m : Minefield) (q : Int × Int) : Bool :=
  match m.getItem q with
  | .ok c => c.value == VALUE_MINE
  | .error _ => false

/-- No cell of the grid is flagged. -/
def noFlags (m : Minefield) : Prop := ∀ q, m.flagB q = false

/-- No cell of the grid is visible yet. -/
def allHidden (m : Minefield) : Prop := ∀ q c, m.getItem q = .ok c → c.visible = false

/-- Cell values are consistent with the mine placement: every
in-bounds non-mine cell's value is the number of mines among its
in-bounds neighbours. -/
def consistent (m : Minefield) : Prop :=
  ∀ q c, m.getItem q = .ok c → c.value ≠ VALUE_MINE →
    c.value = (m.count_mines_around_point q : Int)

/-- Boolean version of `noFlags`, decidable on a concrete grid. -/
def noFlagsB (m : Minefield) : Bool :=
  m.cells.all fun row => row.all fun c => !c.flagged

/-- Boolean version of `allHidden`, decidable on a concrete grid. -/
def allHiddenB (m : Minefield) : Bool :=
  m.cells.all fun row => row.all fun c => !c.visible

/-- Boolean version of `consistent`, decidable on a concrete grid. -/
def consistentB (m : Minefield) : Bool :=
  m.iter_points.all fun q =>
    match m.getItem q with
    | .ok c => c.value == VALUE_MINE || c.value == (m.count_mines_around_point q : Int)
    | .error _ => true

/-- The shape of the grid: the list of row lengths. -/
def shape (m : Minefield) : List Nat := m.cells.map List.length

/-- `Evolves m m'` holds when `m'` differs from `m` at most by turning
`visible` on in some cells; this is the only kind of state change a
reveal can make. -/
def Evolves (m m' : Minefield) : Prop :=
  ∀ q, m'.getItem q = m.getItem q ∨
    ∃ c, m.getItem q = .ok c ∧ m'.getItem q = .ok { c with visible := true }

/-- Update the single cell at a (non-negative) point by a function;
`set_visible` and a successful in-bounds `setItem` are both of this
form. -/
def pointUpd (m : Minefield) (p : Int × Int) (f : Cell → Cell) : Minefield :=
  { m with cells := listUpd m.cells p.2.toNat fun row => listUpd row p.1.toNat f }

end Minefield

/-- Connected zero-region reachability: `ZeroReach m p q` holds when
`q` is connected to `p` through in-bounds cells of value `0`
(adjacency being the 8-neighbourhood); in particular `p` itself must be
an in-bounds zero cell. -/
inductive ZeroReach (m : Minefield) (p : Int × Int) : Int × Int → Prop
  | refl : m.zeroB p = true → ZeroReach m p p
  | step {q r : Int × Int} : ZeroReach m p q → r ∈ points_around_point q →
      m.zeroB r = true → ZeroReach m p r

/-- The closure of the zero-region of `p`: the region itself plus every
in-bounds cell bordering it. -/
def closure (m : Minefield) (p q : Int × Int) : Prop :=
  ZeroReach m p q ∨
    (m.inB q = true ∧ ∃ r, ZeroReach m p r ∧ q ∈ points_around_point r)

/-- Cells a reveal started at `q` can possibly touch: `q` itself, and
everything bordering the zero-region of `q` (when `q` is a zero cell;
otherwise `ZeroReach m q s` is empty). -/
def spread (m : Minefield) (q r : Int × Int) : Prop :=
  r = q ∨ ∃ s, ZeroReach m q s ∧ r ∈ points_around_point s

/-! ### Concrete fields used in the examples -/

/-- A 1×3 row of zero cells whose middle cell is already visible. -/
def fieldMidVisible : Minefield :=
  { cells := [[⟨0, false, false⟩, ⟨0, false, true⟩, ⟨0, false, false⟩]], n_mines := 0 }

/-- `fieldMidVisible` after revealing `(0, 0)`. -/
def fieldMidVisibleRes : Minefield :=
  { cells := [[⟨0, false, true⟩, ⟨0, false, true⟩, ⟨0, false, false⟩]], n_mines := 0 }

/-- A 1×3 row `0, 1, mine`, all hidden and unflagged. -/
def fieldLine3 : Minefield :=
  { cells := [[⟨0, false, false⟩, ⟨1, false, false⟩, ⟨VALUE_MINE, false, false⟩]],
    n_mines := 1 }

/-- `fieldLine3` after revealing `(0, 0)`: the mine stays hidden. -/
def fieldLine3Res : Minefield :=
  { cells := [[⟨0, false, true⟩, ⟨1, false, true⟩, ⟨VALUE_MINE, false, false⟩]],
    n_mines := 1 }

/-- A 1×1 grid holding one flagged hidden cell. -/
def fieldFlagged : Minefield :=
  { cells := [[⟨0, true, false⟩]], n_mines := 0 }

/-- A 1×1 grid holding one hidden zero cell. -/
def fieldZero1 : Minefield :=
  { cells := [[⟨0, false, false⟩]], n_mines := 0 }

/-- `fieldZero1` after revealing its only cell. -/
def fieldZero1Res : Minefield :=
  { cells := [[⟨0, false, true⟩]], n_mines := 0 }

/-! ## Basic lemmas on the list primitives -/

theorem length_listUpd (l : List α) (i : Nat) (f : α → α) :
    (listUpd l i f).length = l.length := by
  induction l generalizing i with
  | nil => rfl
  | cons a t ih =>
    cases i with
    | zero => rfl
    | succ n => simp [listUpd, ih]

theorem get?_listUpd (l : List α) (i j : Nat) (f : α → α) :
    (listUpd l i f).get? j = if i = j then (l.get? j).map f else l.get? j := by
  induction l generalizing i j with
  | nil => simp [listUpd]
  | cons a t ih =>
    cases i with
    | zero => cases j <;> simp [listUpd]
    | succ n =>
      cases j with
      | zero => simp [listUpd]
      | succ k => simpa [listUpd] using ih n k

theorem set_eq_listUpd (l : List α) (i : Nat) (a : α) :
    l.set i a = listUpd l i fun _ => a := by
  induction l generalizing i with
  | nil => rfl
  | cons b t ih =>
    cases i with
    | zero => rfl
    | succ n => simp [listUpd, ih]

theorem countP_listUpd (l : List α) (i : Nat) (f : α → α) (p : α → Bool) (a : α)
    (hget : l.get? i = some a) (hpa : p a = true) (hpf : p (f a) = false) :
    (listUpd l i f).countP p + 1 = l.countP p := by
  induction l generalizing i with
  | nil => simp at hget
  | cons b t ih =>
    cases i with
    | zero =>
      simp only [List.get?] at hget
      cases hget
      simp [listUpd, List.countP_cons, hpa, hpf]
    | succ n =>
      simp only [List.get?] at hget
      simp only [listUpd, List.countP_cons]
      have := ih n hget
      omega

theorem sum_map_listUpd (l : List α) (i : Nat) (f : α → α) (g : α → Nat) (a : α)
    (hget : l.get? i = some a) :
    ((listUpd l i f).map g).sum + g a = (l.map g).sum + g (f a) := by
  induction l generalizing i with
  | nil => simp at hget
  | cons b t ih =>
    cases i with
    | zero =>
      simp only [List.get?] at hget
      cases hget
      simp [listUpd]
      omega
    | succ n =>
      simp only [List.get?] at hget
      simp only [listUpd, List.map_cons, List.sum_cons]
      have := ih n hget
      omega

theorem pyIdx_nonneg (n : Nat) (i : Int) (h : 0 ≤ i) :
    pyIdx n i = if i < (n : Int) then some i.toNat else none := by
  unfold pyIdx
  rcases lt_or_le i (n : Int) with hlt | hge
  · simp [h, hlt]
  · have : ¬ i < (n : Int) := not_lt.mpr hge
    have h2 : ¬ i < 0 := not_lt.mpr h
    simp [this, h2, h]

theorem pyGet_nonneg (l : List α) (i : Int) (h : 0 ≤ i) :
    pyGet l i = l.get? i.toNat := by
  unfold pyGet
  rw [pyIdx_nonneg _ _ h]
  rcases lt_or_le i (l.length : Int) with hlt | hge
  · simp [hlt]
  · have : ¬ i < (l.length : Int) := not_lt.mpr hge
    have hlen : l.length ≤ i.toNat := by omega
    simp [this, List.get?_eq_none]
    omega

/-! ## Characterizations of grid access -/

namespace Minefield

/-- `getItem` on non-negative coordinates is plain double indexing. -/
theorem getItem_eq_bind (m : Minefield) (p : Int × Int) (h1 : 0 ≤ p.1) (h2 : 0 ≤ p.2) :
    m.getItem p =
      ((m.cells.get? p.2.toNat).bind fun row => row.get? p.1.toNat).elim
        (Except.error "IndexError") Except.ok := by
  unfold getItem
  rw [if_neg (by omega), pyGet_nonneg _ _ h2]
  cases m.cells.get? p.2.toNat with
  | none => rfl
  | some row =>
    show (match pyGet row p.1 with
      | none => Except.error "IndexError"
      | some c => Except.ok c) =
      (row.get? p.1.toNat).elim (Except.error "IndexError") Except.ok
    rw [pyGet_nonneg _ _ h1]
    cases row.get? p.1.toNat <;> rfl

theorem getItem_error_of_neg {m : Minefield} {p : Int × Int}
    (h : p.1 < 0 ∨ p.2 < 0) : m.getItem p = .error "IndexError" := by
  unfold getItem
  simp [h]

theorem getItem_ok_iff {m : Minefield} {p : Int × Int} {c : Cell} :
    m.getItem p = .ok c ↔
      0 ≤ p.1 ∧ 0 ≤ p.2 ∧
        ∃ row, m.cells.get? p.2.toNat = some row ∧ row.get? p.1.toNat = some c := by
  constructor
  · intro h
    have hneg : ¬ (p.1 < 0 ∨ p.2 < 0) := by
      intro hc
      rw [getItem_error_of_neg hc] at h
      cases h
    push_neg at hneg
    obtain ⟨h1, h2⟩ := hneg
    refine ⟨h1, h2, ?_⟩
    rw [getItem_eq_bind m p h1 h2] at h
    cases hy : m.cells.get? p.2.toNat with
    | none => rw [hy] at h; cases h
    | some row =>
      rw [hy, Option.some_bind] at h
      cases hx : row.get? p.1.toNat with
      | none => rw [hx] at h; cases h
      | some c' =>
        rw [hx] at h
        cases h
        exact ⟨row, rfl, hx⟩
  · rintro ⟨h1, h2, row, hrow, hc⟩
    rw [getItem_eq_bind m p h1 h2, hrow]
    show (row.get? p.1.toNat).elim (Except.error "IndexError") Except.ok = _
    rw [hc]
    rfl

theorem getItem_nonneg {m : Minefield} {p : Int × Int} {c : Cell}
    (h : m.getItem p = .ok c) : 0 ≤ p.1 ∧ 0 ≤ p.2 := by
  obtain ⟨h1, h2, -⟩ := getItem_ok_iff.mp h
  exact ⟨h1, h2⟩

theorem inB_eq_true_iff {m : Minefield} {q : Int × Int} :
    m.inB q = true ↔ ∃ c, m.getItem q = .ok c := by
  unfold inB
  cases h : m.getItem q with
  | ok c => simp
  | error e => simp

theorem inB_iff {m : Minefield} {q : Int × Int} :
    m.inB q = true ↔
      0 ≤ q.1 ∧ 0 ≤ q.2 ∧
        ∃ row, m.cells.get? q.2.toNat = some row ∧ q.1.toNat < row.length := by
  rw [inB_eq_true_iff]
  constructor
  · rintro ⟨c, hc⟩
    obtain ⟨h1, h2, row, hrow, hc'⟩ := getItem_ok_iff.mp hc
    refine ⟨h1, h2, row, hrow, ?_⟩
    by_contra hlen
    rw [List.get?_eq_none.mpr (by omega)] at hc'
    cases hc'
  · rintro ⟨h1, h2, row, hrow, hlen⟩
    cases hc : row.get? q.1.toNat with
    | none =>
      have := List.get?_eq_none.mp hc
      omega
    | some c => exact ⟨c, getItem_ok_iff.mpr ⟨h1, h2, row, hrow, hc⟩⟩

theorem getD_eq_of_get? {l : List (List Cell)} {y : Nat} {row : List Cell}
    (h : l.get? y = some row) : l.getD y [] = row := by
  induction l generalizing y with
  | nil => cases h
  | cons a t ih =>
    cases y with
    | zero =>
      simp only [List.get?] at h
      cases h
      rfl
    | succ n =>
      simp only [List.get?] at h
      simpa [List.getD] using ih h

theorem mem_iter_points_iff {m : Minefield} {q : Int × Int} :
    q ∈ m.iter_points ↔ m.inB q = true := by
  rw [inB_iff]
  unfold iter_points
  simp only [List.mem_flatMap, List.mem_map, List.mem_range, Int.ofNat_eq_coe]
  constructor
  · rintro ⟨y, hy, x, hx, rfl⟩
    cases hrow : m.cells.get? y with
    | none =>
      have := List.get?_eq_none.mp hrow
      omega
    | some row =>
      rw [getD_eq_of_get? hrow] at hx
      refine ⟨by simp, by simp, row, ?_, ?_⟩
      · have e : (((x : Int), (y : Int)).2).toNat = y := rfl
        rw [e]
        exact hrow
      · have e : (((x : Int), (y : Int)).1).toNat = x := rfl
        rw [e]
        exact hx
  · rintro ⟨h1, h2, row, hrow, hlen⟩
    refine ⟨q.2.toNat, ?_, q.1.toNat, ?_, ?_⟩
    · by_contra hge
      rw [List.get?_eq_none.mpr (by omega)] at hrow
      cases hrow
    · rw [getD_eq_of_get? hrow]
      exact hlen
    · have e1 : (q.1.toNat : Int) = q.1 := by omega
      have e2 : (q.2.toNat : Int) = q.2 := by omega
      rw [e1, e2]

theorem toNat_pair_ne {p q : Int × Int} (h1 : 0 ≤ p.1) (h2 : 0 ≤ p.2)
    (h3 : 0 ≤ q.1) (h4 : 0 ≤ q.2) (hne : q ≠ p) :
    q.1.toNat ≠ p.1.toNat ∨ q.2.toNat ≠ p.2.toNat := by
  by_contra hcon
  push_neg at hcon
  obtain ⟨e1, e2⟩ := hcon
  apply hne
  have e3 : q.1 = p.1 := by omega
  have e4 : q.2 = p.2 := by omega
  exact Prod.ext e3 e4

theorem getD_eq (l : List (List Cell)) (y : Nat) : l.getD y [] = (l.get? y).getD [] := by
  induction l generalizing y with
  | nil => cases y <;> rfl
  | cons a t ih =>
    cases y with
    | zero => rfl
    | succ n => simpa [List.getD] using ih n

theorem listUpd_congr_at {l : List α} {i : Nat} {a : α} (f g : α → α)
    (hget : l.get? i = some a) (hfg : f a = g a) : listUpd l i f = listUpd l i g := by
  induction l generalizing i with
  | nil => cases hget
  | cons b t ih =>
    cases i with
    | zero =>
      simp only [List.get?] at hget
      cases hget
      simp [listUpd, hfg]
    | succ n =>
      simp only [List.get?] at hget
      simp [listUpd, ih hget]

/-! ## Effect of single-cell updates on lookups -/

theorem shape_pointUpd (m : Minefield) (p : Int × Int) (f : Cell → Cell) :
    (m.pointUpd p f).shape = m.shape := by
  unfold pointUpd shape
  apply List.ext_get?
  intro n
  rw [List.get?_map, List.get?_map, get?_listUpd]
  by_cases h : p.2.toNat = n
  · subst h
    rw [if_pos rfl]
    cases m.cells.get? p.2.toNat with
    | none => rfl
    | some row => simp [length_listUpd]
  · rw [if_neg h]

theorem pointUpd_getItem_self {m : Minefield} {p : Int × Int} {c : Cell}
    (h : m.getItem p = .ok c) (f : Cell → Cell) :
    (m.pointUpd p f).getItem p = .ok (f c) := by
  obtain ⟨h1, h2, row, hrow, hc⟩ := getItem_ok_iff.mp h
  apply getItem_ok_iff.mpr
  refine ⟨h1, h2, listUpd row p.1.toNat f, ?_, ?_⟩
  · show (listUpd m.cells p.2.toNat _).get? p.2.toNat = _
    rw [get?_listUpd, if_pos rfl, hrow]
    rfl
  · rw [get?_listUpd, if_pos rfl, hc]
    rfl

theorem pointUpd_getItem_ne {m : Minefield} {p q : Int × Int} {c : Cell}
    (h : m.getItem p = .ok c) (f : Cell → Cell) (hne : q ≠ p) :
    (m.pointUpd p f).getItem q = m.getItem q := by
  obtain ⟨h1, h2, row, hrow, hc⟩ := getItem_ok_iff.mp h
  by_cases hq : q.1 < 0 ∨ q.2 < 0
  · rw [getItem_error_of_neg hq, getItem_error_of_neg hq]
  · push_neg at hq
    obtain ⟨hq1, hq2⟩ := hq
    rw [getItem_eq_bind _ q hq1 hq2, getItem_eq_bind m q hq1 hq2]
    have key : ((m.pointUpd p f).cells.get? q.2.toNat).bind (fun r => r.get? q.1.toNat)
        = (m.cells.get? q.2.toNat).bind fun r => r.get? q.1.toNat := by
      show ((listUpd m.cells p.2.toNat fun row => listUpd row p.1.toNat f).get?
        q.2.toNat).bind (fun r => r.get? q.1.toNat) = _
      rw [get?_listUpd]
      by_cases hy : p.2.toNat = q.2.toNat
      · rw [if_pos hy, ← hy, hrow]
        have hx : q.1.toNat ≠ p.1.toNat := by
          rcases toNat_pair_ne h1 h2 hq1 hq2 hne with hx | hy'
          · exact hx
          · rw [hy] at hy'
            exact absurd rfl hy'
        show ((some (listUpd row p.1.toNat f)).bind fun r => r.get? q.1.toNat) = _
        rw [Option.some_bind, Option.some_bind, get?_listUpd, if_neg (Ne.symm hx)]
      · rw [if_neg hy]
    rw [key]

theorem pointUpd_n_mines (m : Minefield) (p : Int × Int) (f : Cell → Cell) :
    (m.pointUpd p f).n_mines = m.n_mines := rfl

theorem set_visible_eq_pointUpd (m : Minefield) (p : Int × Int) :
    m.set_visible p = m.pointUpd p fun c => { c with visible := true } := rfl

/-- A successful in-bounds `setItem` is an instance of `pointUpd`. -/
theorem setItem_eq_pointUpd {m : Minefield} {p : Int × Int} {c₀ : Cell} (c : Cell)
    (h : m.getItem p = .ok c₀) :
    m.setItem p c = .ok (m.pointUpd p fun _ => c) := by
  obtain ⟨h1, h2, row, hrow, hc⟩ := getItem_ok_iff.mp h
  have hylt : p.2.toNat < m.cells.length := by
    by_contra hge
    rw [List.get?_eq_none.mpr (by omega)] at hrow
    cases hrow
  have hxlt : p.1.toNat < row.length := by
    by_contra hge
    rw [List.get?_eq_none.mpr (by omega)] at hc
    cases hc
  unfold setItem
  rw [pyIdx_nonneg _ _ h2, if_pos (by omega)]
  show (match pyIdx (m.cells.getD p.2.toNat []).length p.1 with
    | none => Except.error "IndexError"
    | some xi =>
      Except.ok { m with
        cells := m.cells.set p.2.toNat ((m.cells.getD p.2.toNat []).set xi c) }) = _
  rw [getD_eq_of_get? hrow, pyIdx_nonneg _ _ h1, if_pos (by omega)]
  have hcells : m.cells.set p.2.toNat (row.set p.1.toNat c)
      = listUpd m.cells p.2.toNat fun r => listUpd r p.1.toNat fun _ => c := by
    rw [set_eq_listUpd]
    exact listUpd_congr_at _ _ hrow (by rw [set_eq_listUpd])
  show Except.ok { m with cells := m.cells.set p.2.toNat (row.set p.1.toNat c) } = _
  rw [hcells]
  rfl

/-! ## Shape congruence -/

theorem shape_length (m : Minefield) : m.shape.length = m.cells.length := by
  simp [shape]

theorem rowlen_of_shape {m m' : Minefield} (h : m'.shape = m.shape) (y : Nat) :
    (m'.cells.get? y).map List.length = (m.cells.get? y).map List.length := by
  have := congrArg (fun l => List.get? l y) h
  simpa [shape, List.get?_map] using this

theorem inB_congr {m m' : Minefield} (h : m'.shape = m.shape) (q : Int × Int) :
    m'.inB q = m.inB q := by
  have key : m'.inB q = true ↔ m.inB q = true := by
    rw [inB_iff, inB_iff]
    have hr := rowlen_of_shape h q.2.toNat
    constructor
    · rintro ⟨h1, h2, row, hrow, hlen⟩
      cases hrow2 : m.cells.get? q.2.toNat with
      | none => rw [hrow, hrow2] at hr; cases hr
      | some row2 =>
        refine ⟨h1, h2, row2, rfl, ?_⟩
        rw [hrow, hrow2] at hr
        simp only [Option.map_some'] at hr
        have : row.length = row2.length := by injection hr
        omega
    · rintro ⟨h1, h2, row, hrow, hlen⟩
      cases hrow2 : m'.cells.get? q.2.toNat with
      | none => rw [hrow, hrow2] at hr; cases hr
      | some row2 =>
        refine ⟨h1, h2, row2, rfl, ?_⟩
        rw [hrow, hrow2] at hr
        simp only [Option.map_some'] at hr
        have : row2.length = row.length := by injection hr
        omega
  cases hb : m'.inB q <;> cases hb' : m.inB q <;> simp_all

theorem iter_points_congr {m m' : Minefield} (h : m'.shape = m.shape) :
    m'.iter_points = m.iter_points := by
  unfold iter_points
  have hlen : m'.cells.length = m.cells.length := by
    have := congrArg List.length h
    simpa [shape] using this
  rw [hlen]
  congr 1
  funext y
  have hgl : (m'.cells.getD y []).length = (m.cells.getD y []).length := by
    have hr := rowlen_of_shape h y
    rw [getD_eq, getD_eq]
    cases e1 : m'.cells.get? y with
    | none =>
      cases e2 : m.cells.get? y with
      | none => rfl
      | some r2 => rw [e1, e2] at hr; cases hr
    | some r1 =>
      cases e2 : m.cells.get? y with
      | none => rw [e1, e2] at hr; cases hr
      | some r2 =>
        rw [e1, e2] at hr
        simp only [Option.map_some'] at hr
        have : r1.length = r2.length := by injection hr
        simpa using this
  rw [hgl]

/-! ## Equation lemmas for `revealGo` and `reveal_cell_at` -/

theorem revealGo_zero (m : Minefield) (p : Int × Int) : revealGo 0 m p = m := rfl

theorem revealGo_succ (f : Nat) (m : Minefield) (p : Int × Int) :
    revealGo (f + 1) m p =
      match m.getItem p with
      | .error _ => m
      | .ok cell =>
        if cell.flagged = true ∨ cell.visible = true then m
        else if cell.value = 0 then
          (points_around_point p).foldl (fun acc q => revealGo f acc q) (m.set_visible p)
        else m.set_visible p := rfl

theorem revealGo_err {f : Nat} {m : Minefield} {p : Int × Int} {e : String}
    (h : m.getItem p = .error e) : revealGo (f + 1) m p = m := by
  rw [revealGo_succ, h]

theorem revealGo_stop {f : Nat} {m : Minefield} {p : Int × Int} {cell : Cell}
    (h : m.getItem p = .ok cell) (hfv : cell.flagged = true ∨ cell.visible = true) :
    revealGo (f + 1) m p = m := by
  rw [revealGo_succ, h]
  show (if cell.flagged = true ∨ cell.visible = true then m else _) = m
  rw [if_pos hfv]

theorem revealGo_step {f : Nat} {m : Minefield} {p : Int × Int} {cell : Cell}
    (h : m.getItem p = .ok cell) (hflag : cell.flagged = false) (hvis : cell.visible = false) :
    revealGo (f + 1) m p =
      if cell.value = 0 then
        (points_around_point p).foldl (fun acc q => revealGo f acc q) (m.set_visible p)
      else m.set_visible p := by
  rw [revealGo_succ, h]
  show (if cell.flagged = true ∨ cell.visible = true then m else _) = _
  rw [if_neg (by simp [hflag, hvis])]

theorem reveal_cell_at_err {m : Minefield} {p : Int × Int} {e : String} (rec : Bool)
    (h : m.getItem p = .error e) : m.reveal_cell_at p rec = .error e := by
  unfold reveal_cell_at
  rw [h]

theorem reveal_cell_at_stop {m : Minefield} {p : Int × Int} {cell : Cell} (rec : Bool)
    (h : m.getItem p = .ok cell) (hfv : cell.flagged = true ∨ cell.visible = true) :
    m.reveal_cell_at p rec = .ok m := by
  unfold reveal_cell_at
  rw [h]
  show (if cell.flagged = true ∨ cell.visible = true then Except.ok m else _) = _
  rw [if_pos hfv]

theorem reveal_cell_at_go {m : Minefield} {p : Int × Int} {cell : Cell} (rec : Bool)
    (h : m.getItem p = .ok cell) (hflag : cell.flagged = false) (hvis : cell.visible = false) :
    m.reveal_cell_at p rec =
      .ok (if cell.value = 0 ∧ rec = true then
        (points_around_point p).foldl (fun acc q => revealGo m.totalCells acc q)
          (m.set_visible p)
      else m.set_visible p) := by
  unfold reveal_cell_at
  rw [h]
  show (if cell.flagged = true ∨ cell.visible = true then Except.ok m else _) = _
  rw [if_neg (by simp [hflag, hvis])]
  by_cases hz : cell.value = 0 ∧ rec = true
  · rw [if_pos hz, if_pos hz]
  · rw [if_neg hz, if_neg hz]

/-! ## Evolution lemmas -/

theorem evolves_refl (m : Minefield) : Evolves m m := fun _ => Or.inl rfl

theorem evolves_trans {m₁ m₂ m₃ : Minefield} (h12 : Evolves m₁ m₂) (h23 : Evolves m₂ m₃) :
    Evolves m₁ m₃ := by
  intro q
  rcases h23 q with h3 | ⟨c, hc2, hc3⟩
  · rcases h12 q with h2 | ⟨c, hc1, hc2⟩
    · exact Or.inl (h3.trans h2)
    · exact Or.inr ⟨c, hc1, h3.trans hc2⟩
  · rcases h12 q with h2 | ⟨c', hc1, hc2'⟩
    · exact Or.inr ⟨c, by rw [← h2]; exact hc2, hc3⟩
    · rw [hc2'] at hc2
      injection hc2 with hc2
      refine Or.inr ⟨c', hc1, ?_⟩
      rw [hc3, ← hc2]

theorem evolves_set_visible {m : Minefield} {p : Int × Int} {c : Cell}
    (h : m.getItem p = .ok c) : Evolves m (m.set_visible p) := by
  intro q
  by_cases hq : q = p
  · subst hq
    exact Or.inr ⟨c, h, by rw [set_visible_eq_pointUpd]; exact pointUpd_getItem_self h _⟩
  · exact Or.inl (by rw [set_visible_eq_pointUpd]; exact pointUpd_getItem_ne h _ hq)

theorem evolves_foldl (step : Minefield → Int × Int → Minefield)
    (hstep : ∀ acc q, Evolves acc (step acc q)) :
    ∀ (l : List (Int × Int)) (acc : Minefield), Evolves acc (List.foldl step acc l) := by
  intro l
  induction l with
  | nil => intro acc; exact evolves_refl acc
  | cons a t ih => intro acc; exact evolves_trans (hstep acc a) (ih (step acc a))

theorem evolves_revealGo (f : Nat) : ∀ (m : Minefield) (p : Int × Int),
    Evolves m (revealGo f m p) := by
  induction f with
  | zero => intro m p; exact evolves_refl m
  | succ f ih =>
    intro m p
    cases hg : m.getItem p with
    | error e => rw [revealGo_err hg]; exact evolves_refl m
    | ok cell =>
      by_cases hfv : cell.flagged = true ∨ cell.visible = true
      · rw [revealGo_stop hg hfv]; exact evolves_refl m
      · push_neg at hfv
        obtain ⟨hflag, hvis⟩ := hfv
        rw [revealGo_step hg (by simpa using hflag) (by simpa using hvis)]
        by_cases hz : cell.value = 0
        · rw [if_pos hz]
          exact evolves_trans (evolves_set_visible hg)
            (evolves_foldl _ (fun acc q => ih acc q) _ _)
        · rw [if_neg hz]
          exact evolves_set_visible hg

theorem Evolves.ok_of_ok {m m' : Minefield} (h : Evolves m m') {q : Int × Int} {c : Cell}
    (hc : m.getItem q = .ok c) :
    ∃ c', m'.getItem q = .ok c' ∧ c'.value = c.value ∧ c'.flagged = c.flagged ∧
      (c.visible = true → c'.visible = true) := by
  rcases h q with h' | ⟨c₀, hc₀, hc₀'⟩
  · exact ⟨c, h'.trans hc, rfl, rfl, fun hv => hv⟩
  · rw [hc₀] at hc
    injection hc with hc
    refine ⟨{ c with visible := true }, ?_, rfl, rfl, fun _ => rfl⟩
    rw [hc] at hc₀'
    exact hc₀'

theorem Evolves.error_eq {m m' : Minefield} (h : Evolves m m') {q : Int × Int} :
    ∀ e, m.getItem q = .error e → m'.getItem q = .error e := by
  intro e he
  rcases h q with h' | ⟨c₀, hc₀, -⟩
  · rw [h', he]
  · rw [hc₀] at he; cases he

theorem Evolves.visB_mono {m m' : Minefield} (h : Evolves m m') {q : Int × Int}
    (hv : m.visB q = true) : m'.visB q = true := by
  unfold visB at hv ⊢
  cases hg : m.getItem q with
  | error e => rw [h.error_eq e hg]
  | ok c =>
    rw [hg] at hv
    obtain ⟨c', hc', -, -, hvis⟩ := h.ok_of_ok hg
    rw [hc']
    exact hvis hv

theorem Evolves.flagB_eq {m m' : Minefield} (h : Evolves m m') (q : Int × Int) :
    m'.flagB q = m.flagB q := by
  unfold flagB
  cases hg : m.getItem q with
  | error e => rw [h.error_eq e hg]
  | ok c =>
    obtain ⟨c', hc', -, hfl, -⟩ := h.ok_of_ok hg
    rw [hc']
    show c'.flagged = c.flagged
    exact hfl

theorem Evolves.zeroB_eq {m m' : Minefield} (h : Evolves m m') (q : Int × Int) :
    m'.zeroB q = m.zeroB q := by
  unfold zeroB
  cases hg : m.getItem q with
  | error e => rw [h.error_eq e hg]
  | ok c =>
    obtain ⟨c', hc', hval, -, -⟩ := h.ok_of_ok hg
    rw [hc']
    show (c'.value == 0) = (c.value == 0)
    rw [hval]

theorem Evolves.mineB_eq {m m' : Minefield} (h : Evolves m m') (q : Int × Int) :
    m'.mineB q = m.mineB q := by
  unfold mineB
  cases hg : m.getItem q with
  | error e => rw [h.error_eq e hg]
  | ok c =>
    obtain ⟨c', hc', hval, -, -⟩ := h.ok_of_ok hg
    rw [hc']
    show (c'.value == VALUE_MINE) = (c.value == VALUE_MINE)
    rw [hval]

theorem Evolves.inB_eq {m m' : Minefield} (h : Evolves m m') (q : Int × Int) :
    m'.inB q = m.inB q := by
  unfold inB
  cases hg : m.getItem q with
  | error e => rw [h.error_eq e hg]
  | ok c =>
    obtain ⟨c', hc', -, -, -⟩ := h.ok_of_ok hg
    rw [hc']

theorem Evolves.noFlags {m m' : Minefield} (h : Evolves m m') (hnf : m.noFlags) :
    m'.noFlags := by
  intro q
  rw [h.flagB_eq q]
  exact hnf q

theorem visB_of_ok {m : Minefield} {q : Int × Int} {c : Cell}
    (h : m.getItem q = .ok c) : m.visB q = c.visible := by
  unfold visB
  rw [h]

theorem visB_of_error {m : Minefield} {q : Int × Int} {e : String}
    (h : m.getItem q = .error e) : m.visB q = true := by
  unfold visB
  rw [h]

theorem flagB_of_ok {m : Minefield} {q : Int × Int} {c : Cell}
    (h : m.getItem q = .ok c) : m.flagB q = c.flagged := by
  unfold flagB
  rw [h]

theorem zeroB_of_ok {m : Minefield} {q : Int × Int} {c : Cell}
    (h : m.getItem q = .ok c) : m.zeroB q = (c.value == 0) := by
  unfold zeroB
  rw [h]

theorem mineB_of_ok {m : Minefield} {q : Int × Int} {c : Cell}
    (h : m.getItem q = .ok c) : m.mineB q = (c.value == VALUE_MINE) := by
  unfold mineB
  rw [h]

theorem inB_of_ok {m : Minefield} {q : Int × Int} {c : Cell}
    (h : m.getItem q = .ok c) : m.inB q = true := by
  unfold inB
  rw [h]

theorem visB_set_visible_self {m : Minefield} {p : Int × Int} {c : Cell}
    (h : m.getItem p = .ok c) : (m.set_visible p).visB p = true := by
  rw [set_visible_eq_pointUpd, visB_of_ok (pointUpd_getItem_self h _)]

/-! ## Hidden-cell counting and fuel sufficiency -/

theorem hiddenCount_set_visible {m : Minefield} {p : Int × Int} {c : Cell}
    (h : m.getItem p = .ok c) (hvis : c.visible = false) :
    (m.set_visible p).hiddenCount + 1 = m.hiddenCount := by
  obtain ⟨h1, h2, row, hrow, hc⟩ := getItem_ok_iff.mp h
  have e1 : (m.set_visible p).hiddenCount
      = ((listUpd m.cells p.2.toNat fun r =>
          listUpd r p.1.toNat fun c => { c with visible := true }).map
            fun r => r.countP fun c => !c.visible).sum := rfl
  have h3 := countP_listUpd row p.1.toNat (fun c => { c with visible := true })
      (fun c => !c.visible) c hc (by simp [hvis]) (by simp)
  have h4 := sum_map_listUpd m.cells p.2.toNat
      (fun r => listUpd r p.1.toNat fun c => { c with visible := true })
      (fun r => r.countP fun c => !c.visible) row hrow
  have e2 : m.hiddenCount = (m.cells.map fun r => r.countP fun c => !c.visible).sum := rfl
  beta_reduce at h3 h4
  omega

theorem sum_map_le (l : List (List Cell)) (f g : List Cell → Nat) (h : ∀ r, f r ≤ g r) :
    (l.map f).sum ≤ (l.map g).sum := by
  induction l with
  | nil => exact Nat.le_refl _
  | cons a t ih =>
    simp only [List.map_cons, List.sum_cons]
    exact Nat.add_le_add (h a) ih

theorem hiddenCount_le_totalCells (m : Minefield) : m.hiddenCount ≤ m.totalCells := by
  unfold hiddenCount totalCells
  exact sum_map_le m.cells _ _ fun r => List.countP_le_length _

theorem hiddenCount_revealGo_le (f : Nat) : ∀ (m : Minefield) (p : Int × Int),
    (revealGo f m p).hiddenCount ≤ m.hiddenCount := by
  induction f with
  | zero =>
    intro m p
    rw [revealGo_zero]
  | succ f ih =>
    intro m p
    cases hg : m.getItem p with
    | error e => rw [revealGo_err hg]
    | ok cell =>
      by_cases hfv : cell.flagged = true ∨ cell.visible = true
      · rw [revealGo_stop hg hfv]
      · push_neg at hfv
        have hflag : cell.flagged = false := by simpa using hfv.1
        have hvis : cell.visible = false := by simpa using hfv.2
        rw [revealGo_step hg hflag hvis]
        have hsv := hiddenCount_set_visible hg hvis
        by_cases hz : cell.value = 0
        · rw [if_pos hz]
          have hfold : ∀ (l : List (Int × Int)) (acc : Minefield),
              (List.foldl (fun a q => revealGo f a q) acc l).hiddenCount
                ≤ acc.hiddenCount := by
            intro l
            induction l with
            | nil => intro acc; exact Nat.le_refl _
            | cons a t iht =>
              intro acc
              rw [List.foldl_cons]
              exact Nat.le_trans (iht _) (ih acc a)
          exact Nat.le_trans (hfold _ _) (by omega)
        · rw [if_neg hz]
          omega

/-- Any two fuels larger than the number of hidden cells give the same
result: the recursion of `reveal_cell_at` is bounded by the hidden-cell
count, hence by the total number of grid cells. -/
theorem revealGo_fuel_congr : ∀ (f₁ f₂ : Nat) (m : Minefield) (p : Int × Int),
    m.hiddenCount < f₁ → m.hiddenCount < f₂ → revealGo f₁ m p = revealGo f₂ m p := by
  intro f₁
  induction f₁ with
  | zero =>
    intro f₂ m p h1
    exact absurd h1 (Nat.not_lt_zero _)
  | succ f₁ ih =>
    intro f₂ m p h1 h2
    cases f₂ with
    | zero => exact absurd h2 (Nat.not_lt_zero _)
    | succ f₂ =>
      cases hg : m.getItem p with
      | error e => rw [revealGo_err hg, revealGo_err hg]
      | ok cell =>
        by_cases hfv : cell.flagged = true ∨ cell.visible = true
        · rw [revealGo_stop hg hfv, revealGo_stop hg hfv]
        · push_neg at hfv
          have hflag : cell.flagged = false := by simpa using hfv.1
          have hvis : cell.visible = false := by simpa using hfv.2
          rw [revealGo_step hg hflag hvis, revealGo_step hg hflag hvis]
          by_cases hz : cell.value = 0
          · rw [if_pos hz, if_pos hz]
            have hsv := hiddenCount_set_visible hg hvis
            have hfold : ∀ (l : List (Int × Int)) (acc : Minefield),
                acc.hiddenCount < f₁ → acc.hiddenCount < f₂ →
                List.foldl (fun a q => revealGo f₁ a q) acc l
                  = List.foldl (fun a q => revealGo f₂ a q) acc l := by
              intro l
              induction l with
              | nil => intro acc _ _; rfl
              | cons a t iht =>
                intro acc ha1 ha2
                have hstep := ih f₂ acc a ha1 ha2
                rw [List.foldl_cons, List.foldl_cons, ← hstep]
                exact iht _
                  (Nat.lt_of_le_of_lt (hiddenCount_revealGo_le f₁ acc a) ha1)
                  (Nat.lt_of_le_of_lt (hiddenCount_revealGo_le f₁ acc a) ha2)
            exact hfold _ _ (by omega) (by omega)
          · rw [if_neg hz, if_neg hz]

theorem reveal_evolves {m m' : Minefield} {p : Int × Int} {rec : Bool}
    (h : m.reveal_cell_at p rec = .ok m') : Evolves m m' := by
  cases hg : m.getItem p with
  | error e =>
    rw [reveal_cell_at_err rec hg] at h
    cases h
  | ok cell =>
    by_cases hfv : cell.flagged = true ∨ cell.visible = true
    · rw [reveal_cell_at_stop rec hg hfv] at h
      injection h with h
      rw [← h]
      exact evolves_refl m
    · push_neg at hfv
      have hflag : cell.flagged = false := by simpa using hfv.1
      have hvis : cell.visible = false := by simpa using hfv.2
      rw [reveal_cell_at_go rec hg hflag hvis] at h
      injection h with h
      by_cases hz : cell.value = 0 ∧ rec = true
      · rw [if_pos hz] at h
        rw [← h]
        exact evolves_trans (evolves_set_visible hg)
          (evolves_foldl _ (fun acc q => evolves_revealGo _ acc q) _ _)
      · rw [if_neg hz] at h
        rw [← h]
        exact evolves_set_visible hg

/-! ## Zero-region reachability -/

theorem ZeroReach_congr {m m' : Minefield} (h : ∀ r, m'.zeroB r = m.zeroB r)
    {p q : Int × Int} (hz : ZeroReach m p q) : ZeroReach m' p q := by
  induction hz with
  | refl h1 => exact ZeroReach.refl (by rw [h]; exact h1)
  | step h1 h2 h3 ih => exact ZeroReach.step ih h2 (by rw [h]; exact h3)

theorem ZeroReach_head {m : Minefield} {p q : Int × Int} (hz : ZeroReach m p q) :
    m.zeroB p = true := by
  induction hz with
  | refl h1 => exact h1
  | step h1 h2 h3 ih => exact ih

theorem ZeroReach_last {m : Minefield} {p q : Int × Int} (hz : ZeroReach m p q) :
    m.zeroB q = true := by
  cases hz with
  | refl h1 => exact h1
  | step h1 h2 h3 => exact h3

theorem ZeroReach_trans {m : Minefield} {p q r : Int × Int}
    (h1 : ZeroReach m p q) (h2 : ZeroReach m q r) : ZeroReach m p r := by
  induction h2 with
  | refl _ => exact h1
  | step h2 hmem hz ih => exact ZeroReach.step ih hmem hz

theorem spread_congr {m m' : Minefield} (h : ∀ t, m'.zeroB t = m.zeroB t)
    {q r : Int × Int} (hs : spread m' q r) : spread m q r := by
  rcases hs with rfl | ⟨s, hzs, hmem⟩
  · exact Or.inl rfl
  · exact Or.inr ⟨s, ZeroReach_congr (fun t => (h t).symm) hzs, hmem⟩

theorem spread_extend {m : Minefield} {q s r : Int × Int} (hq : m.zeroB q = true)
    (hs : s ∈ points_around_point q) (h : spread m s r) : spread m q r := by
  rcases h with rfl | ⟨t, hzt, hmem⟩
  · exact Or.inr ⟨q, ZeroReach.refl hq, hs⟩
  · have hzs : m.zeroB s = true := ZeroReach_head hzt
    have h1 : ZeroReach m q s := ZeroReach.step (ZeroReach.refl hq) hs hzs
    exact Or.inr ⟨t, ZeroReach_trans h1 hzt, hmem⟩

/-! ## Soundness of the flood fill: only `spread` cells get revealed -/

theorem visB_set_visible_ne {m : Minefield} {p q : Int × Int} {c : Cell}
    (h : m.getItem p = .ok c) (hne : q ≠ p) :
    (m.set_visible p).visB q = m.visB q := by
  rw [set_visible_eq_pointUpd]
  unfold visB
  rw [pointUpd_getItem_ne h _ hne]

theorem revealGo_sound (f : Nat) : ∀ (m : Minefield) (q r : Int × Int),
    (revealGo f m q).visB r = true → m.visB r = false → spread m q r := by
  induction f with
  | zero =>
    intro m q r h1 h0
    rw [revealGo_zero] at h1
    rw [h0] at h1
    cases h1
  | succ f ih =>
    intro m q r h1 h0
    cases hg : m.getItem q with
    | error e =>
      rw [revealGo_err hg] at h1
      rw [h0] at h1
      cases h1
    | ok cell =>
      by_cases hfv : cell.flagged = true ∨ cell.visible = true
      · rw [revealGo_stop hg hfv] at h1
        rw [h0] at h1
        cases h1
      · push_neg at hfv
        have hflag : cell.flagged = false := by simpa using hfv.1
        have hvis : cell.visible = false := by simpa using hfv.2
        rw [revealGo_step hg hflag hvis] at h1
        by_cases hz : cell.value = 0
        · rw [if_pos hz] at h1
          by_cases hmid : (m.set_visible q).visB r = true
          · -- only the cell at q changed in this first step
            by_cases hrq : r = q
            · exact Or.inl hrq
            · rw [visB_set_visible_ne hg hrq, h0] at hmid
              cases hmid
          · -- revealed during the fold over the neighbours of q
            have hzq : m.zeroB q = true := by
              rw [zeroB_of_ok hg]
              simp [hz]
            have hfold : ∀ (l : List (Int × Int)) (acc : Minefield),
                (∀ t, acc.zeroB t = m.zeroB t) →
                (List.foldl (fun a s => revealGo f a s) acc l).visB r = true →
                acc.visB r = false →
                ∃ s ∈ l, spread m s r := by
              intro l
              induction l with
              | nil =>
                intro acc _ hh1 hh0
                rw [List.foldl_nil] at hh1
                rw [hh0] at hh1
                cases hh1
              | cons a t iht =>
                intro acc hacc hh1 hh0
                rw [List.foldl_cons] at hh1
                by_cases hmid2 : (revealGo f acc a).visB r = true
                · refine ⟨a, List.mem_cons_self a t, ?_⟩
                  exact spread_congr hacc (ih acc a r hmid2 hh0)
                · obtain ⟨s, hsmem, hsp⟩ := iht (revealGo f acc a)
                    (fun t' => by
                      rw [(evolves_revealGo f acc a).zeroB_eq t']
                      exact hacc t')
                    hh1 (by simpa using hmid2)
                  exact ⟨s, List.mem_cons_of_mem a hsmem, hsp⟩
            obtain ⟨s, hsmem, hsp⟩ := hfold (points_around_point q) (m.set_visible q)
              (fun t' => (evolves_set_visible hg).zeroB_eq t') h1
              (by simpa using hmid)
            exact spread_extend hzq hsmem hsp
        · rw [if_neg hz] at h1
          by_cases hrq : r = q
          · exact Or.inl hrq
          · rw [visB_set_visible_ne hg hrq, h0] at h1
            cases h1

/-- Fold version of soundness, for the top-level call. -/
theorem foldl_revealGo_sound (f : Nat) (l : List (Int × Int)) :
    ∀ (acc : Minefield) (r : Int × Int),
      (List.foldl (fun a s => revealGo f a s) acc l).visB r = true →
      acc.visB r = false →
      ∃ s ∈ l, spread acc s r := by
  induction l with
  | nil =>
    intro acc r h1 h0
    rw [List.foldl_nil] at h1
    rw [h0] at h1
    cases h1
  | cons a t ih =>
    intro acc r h1 h0
    rw [List.foldl_cons] at h1
    by_cases hmid : (revealGo f acc a).visB r = true
    · exact ⟨a, List.mem_cons_self a t, revealGo_sound f acc a r hmid h0⟩
    · obtain ⟨s, hsmem, hsp⟩ := ih (revealGo f acc a) r h1 (by simpa using hmid)
      refine ⟨s, List.mem_cons_of_mem a hsmem, ?_⟩
      exact spread_congr (fun t' => (evolves_revealGo f acc a).zeroB_eq t') hsp

/-- Soundness of `reveal_cell_at`: a cell that the call turns visible
lies in the `spread` of the starting point. -/
theorem reveal_sound {m m' : Minefield} {p : Int × Int} {rec : Bool} {r : Int × Int}
    (h : m.reveal_cell_at p rec = .ok m')
    (h0 : m.visB r = false) (h1 : m'.visB r = true) : spread m p r := by
  cases hg : m.getItem p with
  | error e =>
    rw [reveal_cell_at_err rec hg] at h
    cases h
  | ok cell =>
    by_cases hfv : cell.flagged = true ∨ cell.visible = true
    · rw [reveal_cell_at_stop rec hg hfv] at h
      injection h with h
      rw [← h] at h1
      rw [h0] at h1
      cases h1
    · push_neg at hfv
      have hflag : cell.flagged = false := by simpa using hfv.1
      have hvis : cell.visible = false := by simpa using hfv.2
      rw [reveal_cell_at_go rec hg hflag hvis] at h
      injection h with h
      by_cases hz : cell.value = 0 ∧ rec = true
      · rw [if_pos hz] at h
        rw [← h] at h1
        by_cases hmid : (m.set_visible p).visB r = true
        · by_cases hrp : r = p
          · exact Or.inl hrp
          · rw [visB_set_visible_ne hg hrp, h0] at hmid
            cases hmid
        · have hzp : m.zeroB p = true := by
            rw [zeroB_of_ok hg]
            simp [hz.1]
          obtain ⟨s, hsmem, hsp⟩ := foldl_revealGo_sound m.totalCells
            (points_around_point p) (m.set_visible p) r h1 (by simpa using hmid)
          exact spread_extend hzp hsmem
            (spread_congr (fun t' => (evolves_set_visible hg).zeroB_eq t') hsp)
      · rw [if_neg hz] at h
        rw [← h] at h1
        by_cases hrp : r = p
        · exact Or.inl hrp
        · rw [visB_set_visible_ne hg hrp, h0] at h1
          cases h1

/-! ## Completeness of the flood fill -/

theorem foldl_revealGo_visB_mono (f : Nat) (l : List (Int × Int)) (acc : Minefield)
    {r : Int × Int} (h : acc.visB r = true) :
    (List.foldl (fun a s => revealGo f a s) acc l).visB r = true :=
  (evolves_foldl _ (fun a q => evolves_revealGo f a q) l acc).visB_mono h

theorem foldl_revealGo_hidden_le (f : Nat) (l : List (Int × Int)) (acc : Minefield) :
    (List.foldl (fun a s => revealGo f a s) acc l).hiddenCount ≤ acc.hiddenCount := by
  induction l generalizing acc with
  | nil => exact Nat.le_refl _
  | cons a t ih =>
    rw [List.foldl_cons]
    exact Nat.le_trans (ih _) (hiddenCount_revealGo_le f acc a)

/-- Completeness core: with enough fuel and no flags anywhere, a call
of the recursive reveal worker (i) reveals its target, and (ii) leaves
every zero cell it newly revealed with all its neighbours revealed. -/
theorem revealGo_complete (f : Nat) : ∀ (m : Minefield) (q : Int × Int),
    m.noFlags → m.hiddenCount < f →
    ((revealGo f m q).visB q = true) ∧
    (∀ r, m.visB r = false → (revealGo f m q).visB r = true → m.zeroB r = true →
      ∀ s ∈ points_around_point r, (revealGo f m q).visB s = true) := by
  induction f with
  | zero =>
    intro m q hnf hfuel
    exact absurd hfuel (Nat.not_lt_zero _)
  | succ f ih =>
    intro m q hnf hfuel
    cases hg : m.getItem q with
    | error e =>
      rw [revealGo_err hg]
      refine ⟨visB_of_error hg, ?_⟩
      intro r h0 h1
      rw [h0] at h1
      cases h1
    | ok cell =>
      have hflag : cell.flagged = false := by
        have := hnf q
        rwa [flagB_of_ok hg] at this
      by_cases hvis : cell.visible = true
      · rw [revealGo_stop hg (Or.inr hvis)]
        refine ⟨by rw [visB_of_ok hg]; exact hvis, ?_⟩
        intro r h0 h1
        rw [h0] at h1
        cases h1
      · have hvis' : cell.visible = false := by simpa using hvis
        rw [revealGo_step hg hflag hvis']
        have hsv := hiddenCount_set_visible hg hvis'
        have hnf' : (m.set_visible q).noFlags := (evolves_set_visible hg).noFlags hnf
        by_cases hz : cell.value = 0
        · rw [if_pos hz]
          have hvq : (m.set_visible q).visB q = true := visB_set_visible_self hg
          constructor
          · exact foldl_revealGo_visB_mono f _ _ hvq
          · -- every newly revealed zero cell ends with revealed neighbours
            intro r h0 h1 hzr s hs
            by_cases hrq : r = q
            · -- the neighbours of the entry cell are handled by the fold itself
              subst hrq
              have hall : ∀ (l : List (Int × Int)) (acc : Minefield),
                  acc.noFlags → acc.hiddenCount < f →
                  ∀ s' ∈ l, (List.foldl (fun a u => revealGo f a u) acc l).visB s' = true := by
                intro l
                induction l with
                | nil =>
                  intro acc _ _ s' hs'
                  cases hs'
                | cons a t iht =>
                  intro acc hanf hafuel s' hs'
                  rw [List.foldl_cons]
                  rcases List.mem_cons.mp hs' with rfl | hs't
                  · exact foldl_revealGo_visB_mono f t _
                      ((ih acc s' hanf hafuel).1)
                  · exact iht (revealGo f acc a)
                      ((evolves_revealGo f acc a).noFlags hanf)
                      (Nat.lt_of_le_of_lt (hiddenCount_revealGo_le f acc a) hafuel)
                      s' hs't
              exact hall (points_around_point r) (m.set_visible r) hnf' (by omega) s hs
            · -- newly revealed inside the fold
              have h0' : (m.set_visible q).visB r = false := by
                rw [visB_set_visible_ne hg hrq]
                exact h0
              have hclosed : ∀ (l : List (Int × Int)) (acc : Minefield),
                  acc.noFlags → acc.hiddenCount < f →
                  (∀ t', acc.zeroB t' = m.zeroB t') →
                  acc.visB r = false →
                  (List.foldl (fun a u => revealGo f a u) acc l).visB r = true →
                  ∀ s' ∈ points_around_point r,
                    (List.foldl (fun a u => revealGo f a u) acc l).visB s' = true := by
                intro l
                induction l with
                | nil =>
                  intro acc _ _ _ hh0 hh1
                  rw [List.foldl_nil] at hh1
                  rw [hh0] at hh1
                  cases hh1
                | cons a t iht =>
                  intro acc hanf hafuel hzeq hh0 hh1 s' hs'
                  rw [List.foldl_cons] at hh1 ⊢
                  by_cases hmid : (revealGo f acc a).visB r = true
                  · have hnb := (ih acc a hanf hafuel).2 r hh0 hmid
                      (by rw [hzeq]; exact hzr) s' hs'
                    exact foldl_revealGo_visB_mono f t _ hnb
                  · exact iht (revealGo f acc a)
                      ((evolves_revealGo f acc a).noFlags hanf)
                      (Nat.lt_of_le_of_lt (hiddenCount_revealGo_le f acc a) hafuel)
                      (fun t' => by
                        rw [(evolves_revealGo f acc a).zeroB_eq t']
                        exact hzeq t')
                      (by simpa using hmid) hh1 s' hs'
              exact hclosed (points_around_point q) (m.set_visible q) hnf' (by omega)
                (fun t' => (evolves_set_visible hg).zeroB_eq t') h0' h1 s hs
        · rw [if_neg hz]
          refine ⟨visB_set_visible_self hg, ?_⟩
          intro r h0 h1 hzr s hs
          by_cases hrq : r = q
          · subst hrq
            rw [zeroB_of_ok hg] at hzr
            simp only [beq_iff_eq] at hzr
            exact absurd hzr hz
          · rw [visB_set_visible_ne hg hrq, h0] at h1
            cases h1

/-! ## Top-level completeness of `reveal_cell_at` -/

theorem foldl_reveal_all (f : Nat) (l : List (Int × Int)) :
    ∀ (acc : Minefield), acc.noFlags → acc.hiddenCount < f →
      ∀ s ∈ l, (List.foldl (fun a u => revealGo f a u) acc l).visB s = true := by
  induction l with
  | nil =>
    intro acc _ _ s hs
    cases hs
  | cons a t ih =>
    intro acc hanf hafuel s hs
    rw [List.foldl_cons]
    rcases List.mem_cons.mp hs with rfl | hst
    · exact foldl_revealGo_visB_mono f t _ ((revealGo_complete f acc s hanf hafuel).1)
    · exact ih (revealGo f acc a) ((evolves_revealGo f acc a).noFlags hanf)
        (Nat.lt_of_le_of_lt (hiddenCount_revealGo_le f acc a) hafuel) s hst

theorem foldl_reveal_closed (f : Nat) (l : List (Int × Int)) :
    ∀ (acc : Minefield) (r : Int × Int), acc.noFlags → acc.hiddenCount < f →
      acc.visB r = false →
      (List.foldl (fun a u => revealGo f a u) acc l).visB r = true →
      acc.zeroB r = true →
      ∀ s ∈ points_around_point r,
        (List.foldl (fun a u => revealGo f a u) acc l).visB s = true := by
  induction l with
  | nil =>
    intro acc r _ _ hh0 hh1 _ s hs
    rw [List.foldl_nil] at hh1
    rw [hh0] at hh1
    cases hh1
  | cons a t ih =>
    intro acc r hanf hafuel hh0 hh1 hzr s hs
    rw [List.foldl_cons] at hh1 ⊢
    by_cases hmid : (revealGo f acc a).visB r = true
    · exact foldl_revealGo_visB_mono f t _
        ((revealGo_complete f acc a hanf hafuel).2 r hh0 hmid hzr s hs)
    · exact ih (revealGo f acc a) r ((evolves_revealGo f acc a).noFlags hanf)
        (Nat.lt_of_le_of_lt (hiddenCount_revealGo_le f acc a) hafuel)
        (by simpa using hmid) hh1
        (by rw [(evolves_revealGo f acc a).zeroB_eq r]; exact hzr) s hs

theorem zeroB_elim {m : Minefield} {t : Int × Int} (h : m.zeroB t = true) :
    ∃ c, m.getItem t = .ok c ∧ c.value = 0 := by
  unfold zeroB at h
  cases hg : m.getItem t with
  | error e => rw [hg] at h; cases h
  | ok c =>
    rw [hg] at h
    exact ⟨c, rfl, by simpa using h⟩

/-- Completeness of the top-level reveal on a zero cell: the entry cell
ends visible, and every zero cell the call newly revealed ends with all
its neighbours visible. -/
theorem reveal_complete {m m' : Minefield} {p : Int × Int} {cell : Cell}
    (h : m.reveal_cell_at p true = .ok m') (hnf : m.noFlags)
    (hg : m.getItem p = .ok cell) (hvis : cell.visible = false) (hz : cell.value = 0) :
    m'.visB p = true ∧
    (∀ r, m.visB r = false → m'.visB r = true → m.zeroB r = true →
      ∀ s ∈ points_around_point r, m'.visB s = true) := by
  have hflag : cell.flagged = false := by
    have := hnf p
    rwa [flagB_of_ok hg] at this
  rw [reveal_cell_at_go true hg hflag hvis] at h
  rw [if_pos ⟨hz, rfl⟩] at h
  injection h with h
  have hsv := hiddenCount_set_visible hg hvis
  have htot := hiddenCount_le_totalCells m
  have hfuel : (m.set_visible p).hiddenCount < m.totalCells := by omega
  have hnf' := (evolves_set_visible hg).noFlags hnf
  constructor
  · rw [← h]
    exact foldl_revealGo_visB_mono _ _ _ (visB_set_visible_self hg)
  · intro r h0 h1 hzr s hs
    rw [← h] at h1 ⊢
    by_cases hrp : r = p
    · subst hrp
      exact foldl_reveal_all _ _ _ hnf' hfuel s hs
    · have h0' : (m.set_visible p).visB r = false := by
        rw [visB_set_visible_ne hg hrp]
        exact h0
      exact foldl_reveal_closed _ _ _ r hnf' hfuel h0' h1
        (by rw [(evolves_set_visible hg).zeroB_eq r]; exact hzr) s hs

/-- On an all-hidden, unflagged field, revealing a zero cell reveals
its whole zero-region. -/
theorem reveal_covers_region {m m' : Minefield} {p : Int × Int} {cell : Cell}
    (h : m.reveal_cell_at p true = .ok m') (hnf : m.noFlags) (hhid : m.allHidden)
    (hg : m.getItem p = .ok cell) (hz : cell.value = 0) :
    ∀ r, ZeroReach m p r → m'.visB r = true := by
  have hvis : cell.visible = false := hhid p cell hg
  have hcomp := reveal_complete h hnf hg hvis hz
  intro r hr
  induction hr with
  | refl h1 => exact hcomp.1
  | @step q' r' h1 h2 h3 ih =>
    have hzq := ZeroReach_last h1
    obtain ⟨cq, hcq, -⟩ := zeroB_elim hzq
    have h0 : m.visB q' = false := by
      rw [visB_of_ok hcq]
      exact hhid q' cq hcq
    exact hcomp.2 q' h0 ih hzq r' h2

/-- On an all-hidden, unflagged field, revealing a zero cell reveals
its whole closure (region plus border). -/
theorem reveal_covers_closure {m m' : Minefield} {p : Int × Int} {cell : Cell}
    (h : m.reveal_cell_at p true = .ok m') (hnf : m.noFlags) (hhid : m.allHidden)
    (hg : m.getItem p = .ok cell) (hz : cell.value = 0) :
    ∀ r, closure m p r → m'.visB r = true := by
  have hvis : cell.visible = false := hhid p cell hg
  have hcomp := reveal_complete h hnf hg hvis hz
  intro r hr
  rcases hr with hr | ⟨-, t, ht, hmem⟩
  · exact reveal_covers_region h hnf hhid hg hz r hr
  · have hzt := ZeroReach_last ht
    obtain ⟨ct, hct, -⟩ := zeroB_elim hzt
    have h0 : m.visB t = false := by
      rw [visB_of_ok hct]
      exact hhid t ct hct
    exact hcomp.2 t h0 (reveal_covers_region h hnf hhid hg hz t ht) hzt r hmem

/-! ## Bridges from the Boolean grid predicates -/

theorem cell_mem_of_getItem_ok {m : Minefield} {q : Int × Int} {c : Cell}
    (h : m.getItem q = .ok c) : ∃ row ∈ m.cells, c ∈ row := by
  obtain ⟨-, -, row, hrow, hc⟩ := getItem_ok_iff.mp h
  exact ⟨row, List.get?_mem hrow, List.get?_mem hc⟩

theorem noFlagsB_spec {m : Minefield} (h : m.noFlagsB = true) : m.noFlags := by
  intro q
  unfold flagB
  cases hg : m.getItem q with
  | error e => rfl
  | ok c =>
    obtain ⟨row, hrow, hc⟩ := cell_mem_of_getItem_ok hg
    unfold noFlagsB at h
    rw [List.all_eq_true] at h
    have := h row hrow
    rw [List.all_eq_true] at this
    simpa using this c hc

theorem allHiddenB_spec {m : Minefield} (h : m.allHiddenB = true) : m.allHidden := by
  intro q c hg
  obtain ⟨row, hrow, hc⟩ := cell_mem_of_getItem_ok hg
  unfold allHiddenB at h
  rw [List.all_eq_true] at h
  have := h row hrow
  rw [List.all_eq_true] at this
  simpa using this c hc

theorem consistentB_spec {m : Minefield} (h : m.consistentB = true) : m.consistent := by
  intro q c hg hmine
  unfold consistentB at h
  rw [List.all_eq_true] at h
  have hq : q ∈ m.iter_points := mem_iter_points_iff.mpr (inB_of_ok hg)
  have := h q hq
  rw [hg] at this
  simp only [Bool.or_eq_true, beq_iff_eq] at this
  rcases this with h' | h'
  · exact absurd h' hmine
  · exact h'

/-! ## Mine placement: reset, counting and `iter_points` facts -/

theorem shape_reset (m : Minefield) : m.reset.shape = m.shape := by
  unfold reset shape
  rw [List.map_map]
  congr 1
  funext row
  simp

theorem n_mines_reset (m : Minefield) : m.reset.n_mines = m.n_mines := rfl

theorem getItem_reset (m : Minefield) (q : Int × Int) :
    m.reset.getItem q = (m.getItem q).map fun _ => (⟨0, false, false⟩ : Cell) := by
  by_cases hq : q.1 < 0 ∨ q.2 < 0
  · rw [getItem_error_of_neg hq, getItem_error_of_neg hq]
    rfl
  · push_neg at hq
    obtain ⟨h1, h2⟩ := hq
    rw [getItem_eq_bind _ q h1 h2, getItem_eq_bind m q h1 h2]
    have key : ((m.reset.cells.get? q.2.toNat).bind fun row => row.get? q.1.toNat)
        = ((m.cells.get? q.2.toNat).bind fun row => row.get? q.1.toNat).map
            fun _ => (⟨0, false, false⟩ : Cell) := by
      show (((m.cells.map fun row => row.map fun _ => (⟨0, false, false⟩ : Cell)).get?
        q.2.toNat).bind fun row => row.get? q.1.toNat) = _
      rw [List.get?_map]
      cases m.cells.get? q.2.toNat with
      | none => rfl
      | some row =>
        show ((row.map fun _ => (⟨0, false, false⟩ : Cell)).get? q.1.toNat)
          = (row.get? q.1.toNat).map fun _ => (⟨0, false, false⟩ : Cell)
        rw [List.get?_map]
    rw [key]
    cases (m.cells.get? q.2.toNat).bind fun row => row.get? q.1.toNat <;> rfl

theorem mineB_reset (m : Minefield) (q : Int × Int) : m.reset.mineB q = false := by
  unfold mineB
  rw [getItem_reset]
  cases m.getItem q <;> rfl

theorem count_mines_eq_countP (m : Minefield) (p : Int × Int) :
    m.count_mines_around_point p = (points_around_point p).countP fun q => m.mineB q := by
  unfold count_mines_around_point cells_around_point
  have key : ∀ l : List (Int × Int),
      (l.filterMap fun q => (m.getItem q).toOption).countP
        (fun c => c.value == VALUE_MINE) = l.countP fun q => m.mineB q := by
    intro l
    induction l with
    | nil => rfl
    | cons a t ih =>
      rw [List.filterMap_cons, List.countP_cons]
      cases hg : m.getItem a with
      | error e =>
        have : (Except.error e : Except String Cell).toOption = none := rfl
        rw [this, ih]
        have : m.mineB a = false := by unfold mineB; rw [hg]
        rw [this]
        rfl
      | ok c =>
        have : (Except.ok c : Except String Cell).toOption = some c := rfl
        rw [this, List.countP_cons, ih]
        have : m.mineB a = (c.value == VALUE_MINE) := mineB_of_ok hg
        rw [this]
  exact key _

theorem count_mines_congr {m₁ m₂ : Minefield} (h : ∀ t, m₁.mineB t = m₂.mineB t)
    (p : Int × Int) : m₁.count_mines_around_point p = m₂.count_mines_around_point p := by
  rw [count_mines_eq_countP, count_mines_eq_countP]
  congr 1
  funext q
  exact h q

theorem length_iter_points (m : Minefield) : m.iter_points.length = m.totalCells := by
  unfold iter_points totalCells
  rw [List.length_flatMap]
  congr 1
  apply List.ext_get?
  intro n
  rw [List.get?_map, List.get?_map]
  by_cases hn : n < m.cells.length
  · rw [List.get?_range hn]
    cases hrow : m.cells.get? n with
    | none =>
      exfalso
      have := List.get?_eq_none.mp hrow
      omega
    | some row =>
      simp only [Option.map_some', Function.comp]
      rw [getD_eq_of_get? hrow]
      simp
  · rw [List.get?_eq_none.mpr (by simpa using Nat.not_lt.mp hn),
      List.get?_eq_none.mpr (Nat.not_lt.mp hn)]
    rfl

/-- Writing one constant cell at each point of a list of distinct
in-bounds points. -/
theorem foldlM_setItem_const (cst : Cell) (l : List (Int × Int)) :
    ∀ (m : Minefield), (∀ q ∈ l, m.inB q = true) →
    ∃ m', List.foldlM (fun acc q => acc.setItem q cst) m l = .ok m' ∧
      m'.shape = m.shape ∧ m'.n_mines = m.n_mines ∧
      (∀ q ∈ l, m'.getItem q = .ok cst) ∧
      (∀ q, q ∉ l → m'.getItem q = m.getItem q) := by
  induction l with
  | nil =>
    intro m _
    refine ⟨m, List.foldlM_nil _ _, rfl, rfl, ?_, ?_⟩
    · intro q hq
      cases hq
    · intro q _
      rfl
  | cons a t ih =>
    intro m hin
    obtain ⟨c₀, hc₀⟩ := inB_eq_true_iff.mp (hin a (List.mem_cons_self a t))
    have hset := setItem_eq_pointUpd cst hc₀
    have hsh : (m.pointUpd a fun _ => cst).shape = m.shape := shape_pointUpd m a _
    have hin' : ∀ q ∈ t, (m.pointUpd a fun _ => cst).inB q = true := by
      intro q hq
      rw [inB_congr hsh q]
      exact hin q (List.mem_cons_of_mem a hq)
    obtain ⟨m', hfold, hsh', hnm, hmem, hout⟩ := ih (m.pointUpd a fun _ => cst) hin'
    refine ⟨m', ?_, hsh'.trans hsh, hnm.trans (pointUpd_n_mines m a _), ?_, ?_⟩
    · rw [List.foldlM_cons, hset]
      exact hfold
    · intro q hq
      rcases List.mem_cons.mp hq with rfl | hqt
      · by_cases hqt2 : q ∈ t
        · exact hmem q hqt2
        · rw [hout q hqt2]
          exact pointUpd_getItem_self hc₀ _
      · exact hmem q hqt
    · intro q hq
      rw [hout q fun hq' => hq (List.mem_cons_of_mem a hq')]
      exact pointUpd_getItem_ne hc₀ _
        fun h => hq (List.mem_cons.mpr (Or.inl h))

/-- Writing the current neighbour mine count at each point of a list of
distinct in-bounds non-mine points, as the second loop of `init_mines`
does: since the writes never create or remove a mine, every written
cell ends up holding its mine count over the final state. -/
theorem foldlM_setItem_counts (l : List (Int × Int)) :
    ∀ (m : Minefield), l.Nodup → (∀ q ∈ l, m.inB q = true) →
    (∀ q ∈ l, m.mineB q = false) →
    ∃ m', List.foldlM (fun acc q =>
        acc.setItem q ⟨(acc.count_mines_around_point q : Int), false, false⟩) m l
        = .ok m' ∧
      m'.shape = m.shape ∧ m'.n_mines = m.n_mines ∧
      (∀ t', m'.mineB t' = m.mineB t') ∧
      (∀ q ∈ l, m'.getItem q
        = .ok ⟨(m'.count_mines_around_point q : Int), false, false⟩) ∧
      (∀ q, q ∉ l → m'.getItem q = m.getItem q) := by
  induction l with
  | nil =>
    intro m _ _ _
    refine ⟨m, List.foldlM_nil _ _, rfl, rfl, fun _ => rfl, ?_, ?_⟩
    · intro q hq
      cases hq
    · intro q _
      rfl
  | cons a t ih =>
    intro m hnd hin hnm
    obtain ⟨c₀, hc₀⟩ := inB_eq_true_iff.mp (hin a (List.mem_cons_self a t))
    have hset := setItem_eq_pointUpd
      (⟨(m.count_mines_around_point a : Int), false, false⟩ : Cell) hc₀
    have hsh : (m.pointUpd a fun _ =>
        (⟨(m.count_mines_around_point a : Int), false, false⟩ : Cell)).shape = m.shape :=
      shape_pointUpd m a _
    have hmB : ∀ t', (m.pointUpd a fun _ =>
        (⟨(m.count_mines_around_point a : Int), false, false⟩ : Cell)).mineB t'
        = m.mineB t' := by
      intro t'
      by_cases ht : t' = a
      · subst ht
        rw [mineB_of_ok (pointUpd_getItem_self hc₀ _)]
        have h1 : (((m.count_mines_around_point t' : Int)) == VALUE_MINE) = false := by
          simp only [VALUE_MINE, beq_eq_false_iff_ne, ne_eq]
          omega
        rw [h1, hnm t' (List.mem_cons_self t' t)]
      · unfold mineB
        rw [pointUpd_getItem_ne hc₀ _ ht]
    have hin' : ∀ q ∈ t, (m.pointUpd a fun _ =>
        (⟨(m.count_mines_around_point a : Int), false, false⟩ : Cell)).inB q = true := by
      intro q hq
      rw [inB_congr hsh q]
      exact hin q (List.mem_cons_of_mem a hq)
    have hnm' : ∀ q ∈ t, (m.pointUpd a fun _ =>
        (⟨(m.count_mines_around_point a : Int), false, false⟩ : Cell)).mineB q = false := by
      intro q hq
      rw [hmB q]
      exact hnm q (List.mem_cons_of_mem a hq)
    obtain ⟨m', hfold, hsh', hnmines, hmineB', hmem, hout⟩ :=
      ih (m.pointUpd a fun _ =>
        (⟨(m.count_mines_around_point a : Int), false, false⟩ : Cell))
        (List.nodup_cons.mp hnd).2 hin' hnm'
    have hanot : a ∉ t := (List.nodup_cons.mp hnd).1
    have hmineAll : ∀ t', m'.mineB t' = m.mineB t' :=
      fun t' => (hmineB' t').trans (hmB t')
    refine ⟨m', ?_, hsh'.trans hsh, hnmines.trans (pointUpd_n_mines m a _), hmineAll,
      ?_, ?_⟩
    · rw [List.foldlM_cons, hset]
      exact hfold
    · intro q hq
      rcases List.mem_cons.mp hq with rfl | hqt
      · rw [hout q hanot, pointUpd_getItem_self hc₀]
        have hcc : m'.count_mines_around_point q = m.count_mines_around_point q :=
          count_mines_congr hmineAll q
        rw [hcc]
      · exact hmem q hqt
    · intro q hq
      rw [hout q fun hq' => hq (List.mem_cons_of_mem a hq')]
      exact pointUpd_getItem_ne hc₀ _
        fun h => hq (List.mem_cons.mpr (Or.inl h))

theorem nodup_iter_points (m : Minefield) : m.iter_points.Nodup := by
  unfold iter_points
  rw [List.nodup_flatMap]
  constructor
  · intro y _
    have hinj : Function.Injective fun x : Nat => (Int.ofNat x, Int.ofNat y) := by
      intro x1 x2 hx
      have h2 := congrArg Prod.fst hx
      simp only [Int.ofNat_eq_coe] at h2
      omega
    exact (List.nodup_range _).map hinj
  · refine List.Pairwise.imp ?_ (List.pairwise_lt_range _)
    intro a b hab
    intro z hz1 hz2
    rw [List.mem_map] at hz1 hz2
    obtain ⟨x1, -, e1⟩ := hz1
    obtain ⟨x2, -, e2⟩ := hz2
    rw [← e1] at e2
    have h2 := congrArg Prod.snd e2
    simp only [Int.ofNat_eq_coe] at h2
    omega

theorem init_mines_eq (m : Minefield) (restricted shuffled : List (Int × Int)) :
    m.init_mines restricted shuffled =
      (List.foldlM (fun acc q => acc.setItem q ⟨VALUE_MINE, false, false⟩) m.reset
        (shuffled.take m.reset.n_mines)) >>= fun m1 =>
      List.foldlM (fun acc q =>
        acc.setItem q ⟨(acc.count_mines_around_point q : Int), false, false⟩) m1
        (shuffled.drop m.reset.n_mines ++ restricted) := rfl

theorem mine_neighbor_count_pos {m : Minefield} {s q : Int × Int} {c : Cell}
    (hmem : q ∈ points_around_point s) (hq : m.getItem q = .ok c)
    (hmine : c.value = VALUE_MINE) : 0 < m.count_mines_around_point s := by
  unfold count_mines_around_point cells_around_point
  rw [List.countP_pos]
  refine ⟨c, ?_, by simp [hmine]⟩
  rw [List.mem_filterMap]
  exact ⟨q, hmem, by rw [hq]; rfl⟩

/-! ## Claim theorems: the reveal operation -/

/-- Claim C8: if the cell at an in-bounds coordinate is flagged or already
visible, `reveal_cell_at` returns the minefield unchanged (the very
same state, so every cell's `value`, `flagged` and `visible` are
identical); in particular a flagged hidden cell stays hidden. -/
theorem reveal_noop_on_flagged_or_visible (m : Minefield) (p : Int × Int) (c : Cell)
    (rec : Bool) (hget : m.getItem p = .ok c)
    (h : c.flagged = true ∨ c.visible = true) :
    m.reveal_cell_at p rec = .ok m :=
  reveal_cell_at_stop rec hget h

theorem reveal_noop_on_flagged_or_visible_witness :
    fieldFlagged.getItem (0, 0) = Except.ok ⟨0, true, false⟩ ∧
    fieldFlagged.reveal_cell_at (0, 0) true = Except.ok fieldFlagged :=
  ⟨by rfl, reveal_noop_on_flagged_or_visible fieldFlagged (0, 0) ⟨0, true, false⟩ true
    (by rfl) (Or.inl rfl)⟩

/-- Claim C9: `reveal_cell_at` with `recursive=True` is idempotent: if a
first call turns `m` into `m'`, a second call on `m'` at the same
coordinate returns `m'` unchanged. -/
theorem reveal_idempotent (m m' : Minefield) (p : Int × Int)
    (h : m.reveal_cell_at p true = .ok m') :
    m'.reveal_cell_at p true = .ok m' := by
  cases hg : m.getItem p with
  | error e =>
    rw [reveal_cell_at_err true hg] at h
    cases h
  | ok cell =>
    by_cases hfv : cell.flagged = true ∨ cell.visible = true
    · rw [reveal_cell_at_stop true hg hfv] at h
      injection h with h
      rw [← h]
      exact reveal_cell_at_stop true hg hfv
    · push_neg at hfv
      have hflag : cell.flagged = false := by simpa using hfv.1
      have hvis : cell.visible = false := by simpa using hfv.2
      obtain ⟨c', hc', hval, hfl, -⟩ := (reveal_evolves h).ok_of_ok hg
      rw [reveal_cell_at_go true hg hflag hvis] at h
      injection h with h
      have hvp : m'.visB p = true := by
        rw [← h]
        by_cases hz : cell.value = 0 ∧ (true : Bool) = true
        · rw [if_pos hz]
          exact foldl_revealGo_visB_mono _ _ _ (visB_set_visible_self hg)
        · rw [if_neg hz]
          exact visB_set_visible_self hg
      have hv' : c'.visible = true := by
        rw [visB_of_ok hc'] at hvp
        exact hvp
      exact reveal_cell_at_stop true hc' (Or.inr hv')

theorem reveal_idempotent_witness :
    fieldZero1.reveal_cell_at (0, 0) true = Except.ok fieldZero1Res ∧
    fieldZero1Res.reveal_cell_at (0, 0) true = Except.ok fieldZero1Res :=
  ⟨by rfl, reveal_idempotent fieldZero1 fieldZero1Res (0, 0) (by rfl)⟩

/-- Claim C7: the recursive flood fill is bounded by the grid size: the
number of hidden cells never exceeds `width*height` cells, and any two
recursion-depth bounds larger than the hidden-cell count produce the
same result, so the recursion visits each cell at most once and
terminates within `width*height` visits on every finite grid. -/
theorem reveal_recursion_bounded (m : Minefield) (p : Int × Int) (f₁ f₂ : Nat) :
    m.hiddenCount ≤ m.totalCells ∧
    (m.hiddenCount < f₁ → m.hiddenCount < f₂ →
      revealGo f₁ m p = revealGo f₂ m p) :=
  ⟨hiddenCount_le_totalCells m, fun h1 h2 => revealGo_fuel_congr f₁ f₂ m p h1 h2⟩

theorem reveal_recursion_bounded_witness :
    (make (2, 2) 0).hiddenCount ≤ (make (2, 2) 0).totalCells ∧
    revealGo 5 (make (2, 2) 0) (0, 0) = revealGo 9 (make (2, 2) 0) (0, 0) :=
  ⟨(reveal_recursion_bounded (make (2, 2) 0) (0, 0) 5 9).1,
   (reveal_recursion_bounded (make (2, 2) 0) (0, 0) 5 9).2 (by decide) (by decide)⟩

/-- Claim C10: on a minefield whose cell values are consistent with its mine
placement, revealing a zero cell never turns a mine visible: every
cell holding the mine sentinel has the same visibility after the
reveal as before. -/
theorem reveal_never_reveals_mine (m m' : Minefield) (p : Int × Int)
    (hcons : m.consistentB = true) (hz : m.zeroB p = true)
    (h : m.reveal_cell_at p true = .ok m') :
    ∀ q c c', m.getItem q = .ok c → m'.getItem q = .ok c' →
      c.value = VALUE_MINE → c'.visible = c.visible := by
  intro q c c' hq hq' hmine
  by_cases hv : c.visible = true
  · obtain ⟨c'', hc'', -, -, hvm⟩ := (reveal_evolves h).ok_of_ok hq
    rw [hq'] at hc''
    injection hc'' with e
    rw [hv, e]
    exact hvm hv
  · have hv1 : c.visible = false := by simpa using hv
    by_cases hv2 : c'.visible = true
    · exfalso
      have h0 : m.visB q = false := by
        rw [visB_of_ok hq]
        exact hv1
      have h1 : m'.visB q = true := by
        rw [visB_of_ok hq']
        exact hv2
      rcases reveal_sound h h0 h1 with rfl | ⟨s, hzs, hmem⟩
      · obtain ⟨cp, hcp, hcp0⟩ := zeroB_elim hz
        rw [hq] at hcp
        injection hcp with e
        rw [← e, hmine] at hcp0
        norm_num [VALUE_MINE] at hcp0
      · have hzlast := ZeroReach_last hzs
        obtain ⟨cs, hcs, hcs0⟩ := zeroB_elim hzlast
        have hcount := consistentB_spec hcons s cs hcs
          (by rw [hcs0]; norm_num [VALUE_MINE])
        rw [hcs0] at hcount
        have hpos := mine_neighbor_count_pos hmem hq hmine
        omega
    · have : c'.visible = false := by simpa using hv2
      rw [this, hv1]

theorem reveal_never_reveals_mine_witness :
    fieldLine3.consistentB = true ∧ fieldLine3.zeroB (0, 0) = true ∧
    fieldLine3.reveal_cell_at (0, 0) true = Except.ok fieldLine3Res ∧
    (Cell.mk VALUE_MINE false false).visible = (Cell.mk VALUE_MINE false false).visible :=
  ⟨by decide, by decide, by rfl,
   reveal_never_reveals_mine fieldLine3 fieldLine3Res (0, 0) (by decide) (by decide)
     (by rfl) (2, 0) ⟨VALUE_MINE, false, false⟩ ⟨VALUE_MINE, false, false⟩
     (by rfl) (by rfl) rfl⟩

/-- Claim C6 (amended): on a minefield with consistent cell values in which
no cell is flagged and no cell is visible, revealing a cell `p` of
value 0 succeeds and produces a state in which every in-bounds cell
keeps its value and flag, and is visible exactly when it belongs to the
closure of the zero-region of `p` (the connected zero-region plus its
in-bounds border). -/
theorem reveal_flood_fill_coverage (m : Minefield) (p : Int × Int) (cell : Cell)
    (hconsB : m.consistentB = true) (hnfB : m.noFlagsB = true)
    (hhidB : m.allHiddenB = true)
    (hg : m.getItem p = .ok cell) (hz : cell.value = 0) :
    ∃ m', m.reveal_cell_at p true = Except.ok m' ∧
      ∀ q c, m.getItem q = .ok c →
        ∃ c', m'.getItem q = .ok c' ∧ c'.value = c.value ∧ c'.flagged = c.flagged ∧
          (c'.visible = true ↔ closure m p q) := by
  have hnf := noFlagsB_spec hnfB
  have hhid := allHiddenB_spec hhidB
  have hvis : cell.visible = false := hhid p cell hg
  have hflag : cell.flagged = false := by
    have := hnf p
    rwa [flagB_of_ok hg] at this
  have hrev : ∃ m', m.reveal_cell_at p true = Except.ok m' := by
    rw [reveal_cell_at_go true hg hflag hvis]
    exact ⟨_, rfl⟩
  obtain ⟨m', hm'⟩ := hrev
  refine ⟨m', hm', ?_⟩
  intro q c hq
  obtain ⟨c', hc', hval, hfl, -⟩ := (reveal_evolves hm').ok_of_ok hq
  refine ⟨c', hc', hval, hfl, ?_⟩
  have hcvis : c.visible = false := hhid q c hq
  constructor
  · intro hv'
    have h0 : m.visB q = false := by
      rw [visB_of_ok hq]
      exact hcvis
    have h1 : m'.visB q = true := by
      rw [visB_of_ok hc']
      exact hv'
    rcases reveal_sound hm' h0 h1 with rfl | ⟨s, hzs, hmem⟩
    · exact Or.inl (ZeroReach.refl (by rw [zeroB_of_ok hg]; simp [hz]))
    · exact Or.inr ⟨inB_of_ok hq, s, hzs, hmem⟩
  · intro hcl
    have hv := reveal_covers_closure hm' hnf hhid hg hz q hcl
    rw [visB_of_ok hc'] at hv
    exact hv

theorem reveal_flood_fill_coverage_witness :
    fieldZero1.consistentB = true ∧ fieldZero1.noFlagsB = true ∧
    fieldZero1.allHiddenB = true ∧ fieldZero1.getItem (0, 0) = Except.ok ⟨0, false, false⟩ ∧
    (∃ m', fieldZero1.reveal_cell_at (0, 0) true = Except.ok m' ∧
      ∀ q c, fieldZero1.getItem q = .ok c →
        ∃ c', m'.getItem q = .ok c' ∧ c'.value = c.value ∧ c'.flagged = c.flagged ∧
          (c'.visible = true ↔ closure fieldZero1 (0, 0) q)) :=
  ⟨by decide, by decide, by decide, by rfl,
   reveal_flood_fill_coverage fieldZero1 (0, 0) ⟨0, false, false⟩
     (by decide) (by decide) (by decide) (by rfl) rfl⟩

/-- Claim C6 (counterexample to the claim as stated): on a minefield with
consistent values whose zero-region is partly visible already, the
reveal does not cover the region: in `fieldMidVisible` the cell
`(2, 0)` is zero-connected to `(0, 0)`, yet after revealing `(0, 0)`
the cell `(2, 0)` is still not visible, because the already-visible
middle cell stops the cascade. -/
theorem reveal_flood_fill_coverage_cex :
    fieldMidVisible.consistentB = true ∧
    ZeroReach fieldMidVisible (0, 0) (2, 0) ∧
    fieldMidVisible.reveal_cell_at (0, 0) true = Except.ok fieldMidVisibleRes ∧
    fieldMidVisibleRes.getItem (2, 0) = Except.ok ⟨0, false, false⟩ :=
  ⟨by decide,
   @ZeroReach.step fieldMidVisible (0, 0) (1, 0) (2, 0)
     (@ZeroReach.step fieldMidVisible (0, 0) (0, 0) (1, 0)
       (ZeroReach.refl (by decide)) (by decide) (by decide))
     (by decide) (by decide),
   by rfl, by rfl⟩

/-! ## Claim theorems: mine placement -/

/-- Claim C4: for every permutation the shuffle may produce, when
`0 ≤ n_mines ≤ width*height`, `init_mines` with no restricted points
places exactly `n_mines` mine cells, and every non-mine cell's value is
its in-bounds neighbour mine count computed over the final placement
(`consistent`). -/
theorem init_mines_spec (m : Minefield) (shuffled : List (Int × Int))
    (hperm : shuffled.Perm m.iter_points)
    (hn : m.n_mines ≤ m.totalCells) :
    ∃ m', m.init_mines [] shuffled = Except.ok m' ∧
      (m'.iter_points.countP fun q => m'.mineB q) = m.n_mines ∧
      m'.consistent := by
  have hnodupSh : shuffled.Nodup := hperm.nodup_iff.mpr (nodup_iter_points m)
  have hmemIn : ∀ q ∈ shuffled, m.reset.inB q = true := by
    intro q hq
    rw [inB_congr (shape_reset m) q]
    exact mem_iter_points_iff.mp (hperm.mem_iff.mp hq)
  obtain ⟨m1, hfold1, hsh1, hnm1, hmem1, hout1⟩ :=
    foldlM_setItem_const ⟨VALUE_MINE, false, false⟩ (shuffled.take m.reset.n_mines)
      m.reset (fun q hq => hmemIn q (List.take_subset _ _ hq))
  have hdisj := List.disjoint_take_drop (l := shuffled) hnodupSh
    (Nat.le_refl m.reset.n_mines)
  have hdropIn : ∀ q ∈ shuffled.drop m.reset.n_mines, m1.inB q = true := by
    intro q hq
    rw [inB_congr hsh1 q]
    exact hmemIn q (List.drop_subset _ _ hq)
  have hdropNoMine : ∀ q ∈ shuffled.drop m.reset.n_mines, m1.mineB q = false := by
    intro q hq
    have hnt : q ∉ shuffled.take m.reset.n_mines := fun hq' => hdisj hq' hq
    unfold mineB
    rw [hout1 q hnt, ← mineB]
    exact mineB_reset m q
  obtain ⟨m2, hfold2, hsh2, hnm2, hmineB2, hmem2, hout2⟩ :=
    foldlM_setItem_counts (shuffled.drop m.reset.n_mines) m1
      (hnodupSh.sublist (List.drop_sublist _ _)) hdropIn hdropNoMine
  have hiter2 : m2.iter_points = m.iter_points := by
    apply iter_points_congr
    exact (hsh2.trans hsh1).trans (shape_reset m)
  refine ⟨m2, ?_, ?_, ?_⟩
  · rw [init_mines_eq, hfold1, List.append_nil]
    show List.foldlM _ m1 _ = _
    exact hfold2
  · -- exactly n_mines mines
    rw [hiter2]
    have hcnt := (hperm.countP_eq fun q => m2.mineB q).symm
    rw [hcnt]
    have hsplit := List.take_append_drop m.reset.n_mines shuffled
    rw [← hsplit, List.countP_append]
    have h1 : (shuffled.take m.reset.n_mines).countP (fun q => m2.mineB q)
        = (shuffled.take m.reset.n_mines).length := by
      apply List.countP_eq_length.mpr
      intro q hq
      have hq2 : m2.getItem q = m1.getItem q := by
        apply hout2
        intro hqd
        exact hdisj hq hqd
      have : m2.mineB q = true := by
        unfold mineB
        rw [hq2, hmem1 q hq]
        rfl
      simpa using this
    have h2 : (shuffled.drop m.reset.n_mines).countP (fun q => m2.mineB q) = 0 := by
      rw [List.countP_eq_zero]
      intro q hq
      have := hmem2 q hq
      have hmb : m2.mineB q = false := by
        rw [mineB_of_ok this]
        simp only [VALUE_MINE, beq_eq_false_iff_ne, ne_eq]
        omega
      simp [hmb]
    rw [h1, h2, List.length_take]
    have hlen : shuffled.length = m.totalCells := by
      rw [hperm.length_eq, length_iter_points]
    have : m.reset.n_mines = m.n_mines := rfl
    omega
  · -- consistency of the final placement
    intro q c hq hne
    have hqin : q ∈ shuffled := by
      apply hperm.mem_iff.mpr
      rw [← hiter2]
      exact mem_iter_points_iff.mpr (inB_of_ok hq)
    rw [← List.take_append_drop m.reset.n_mines shuffled, List.mem_append] at hqin
    rcases hqin with hqt | hqd
    · exfalso
      have hq2 : m2.getItem q = m1.getItem q := by
        apply hout2
        intro hqd
        exact hdisj hqt hqd
      rw [hq2, hmem1 q hqt] at hq
      injection hq with e
      rw [← e] at hne
      exact hne rfl
    · have := hmem2 q hqd
      rw [this] at hq
      injection hq with e
      rw [← e]

theorem init_mines_spec_witness :
    (make (2, 2) 1).n_mines ≤ (make (2, 2) 1).totalCells ∧
    (∃ m', (make (2, 2) 1).init_mines [] (make (2, 2) 1).iter_points = Except.ok m' ∧
      (m'.iter_points.countP fun q => m'.mineB q) = (make (2, 2) 1).n_mines ∧
      m'.consistent) :=
  ⟨by decide,
   init_mines_spec (make (2, 2) 1) (make (2, 2) 1).iter_points
     (List.Perm.refl _) (by decide)⟩

/-- Claim C5: for every permutation the shuffle may produce, after
`init_mines` with `restricted_points = {p}` for an in-bounds `p`, the
cell at `p` is not a mine: it holds the (non-negative) adjacency count
of the final placement. -/
theorem init_mines_restricted_spec (m : Minefield) (p : Int × Int)
    (shuffled : List (Int × Int)) (hp : m.inB p = true)
    (hperm : shuffled.Perm (m.iter_points.filter fun q => q ≠ p)) :
    ∃ m' c, m.init_mines [p] shuffled = Except.ok m' ∧ m'.getItem p = .ok c ∧
      c.value ≠ VALUE_MINE ∧ 0 ≤ c.value ∧
      c.value = (m'.count_mines_around_point p : Int) := by
  have hnodupSh : shuffled.Nodup :=
    hperm.nodup_iff.mpr ((nodup_iter_points m).filter _)
  have hmemSh : ∀ q ∈ shuffled, q ∈ m.iter_points ∧ q ≠ p := by
    intro q hq
    have := hperm.mem_iff.mp hq
    rw [List.mem_filter] at this
    exact ⟨this.1, by simpa using this.2⟩
  have hmemIn : ∀ q ∈ shuffled, m.reset.inB q = true := by
    intro q hq
    rw [inB_congr (shape_reset m) q]
    exact mem_iter_points_iff.mp (hmemSh q hq).1
  obtain ⟨m1, hfold1, hsh1, hnm1, hmem1, hout1⟩ :=
    foldlM_setItem_const ⟨VALUE_MINE, false, false⟩ (shuffled.take m.reset.n_mines)
      m.reset (fun q hq => hmemIn q (List.take_subset _ _ hq))
  have hdisj := List.disjoint_take_drop (l := shuffled) hnodupSh
    (Nat.le_refl m.reset.n_mines)
  have hpnot : p ∉ shuffled := fun hp' => (hmemSh p hp').2 rfl
  have hothersNodup : (shuffled.drop m.reset.n_mines ++ [p]).Nodup := by
    apply List.Nodup.append (hnodupSh.sublist (List.drop_sublist _ _))
      (List.nodup_singleton p)
    intro a ha hap
    rw [List.mem_singleton] at hap
    subst hap
    exact hpnot (List.drop_subset _ _ ha)
  have hothersIn : ∀ q ∈ shuffled.drop m.reset.n_mines ++ [p], m1.inB q = true := by
    intro q hq
    rw [inB_congr hsh1 q]
    rcases List.mem_append.mp hq with hqd | hqp
    · exact hmemIn q (List.drop_subset _ _ hqd)
    · rw [List.mem_singleton] at hqp
      subst hqp
      rw [inB_congr (shape_reset m) q]
      exact hp
  have hothersNoMine : ∀ q ∈ shuffled.drop m.reset.n_mines ++ [p],
      m1.mineB q = false := by
    intro q hq
    have hnt : q ∉ shuffled.take m.reset.n_mines := by
      rcases List.mem_append.mp hq with hqd | hqp
      · exact fun hq' => hdisj hq' hqd
      · rw [List.mem_singleton] at hqp
        subst hqp
        exact fun hq' => hpnot (List.take_subset _ _ hq')
    unfold mineB
    rw [hout1 q hnt, ← mineB]
    exact mineB_reset m q
  obtain ⟨m2, hfold2, hsh2, hnm2, hmineB2, hmem2, hout2⟩ :=
    foldlM_setItem_counts (shuffled.drop m.reset.n_mines ++ [p]) m1
      hothersNodup hothersIn hothersNoMine
  have hpmem : p ∈ shuffled.drop m.reset.n_mines ++ [p] :=
    List.mem_append.mpr (Or.inr (List.mem_singleton.mpr rfl))
  refine ⟨m2, ⟨(m2.count_mines_around_point p : Int), false, false⟩, ?_, ?_, ?_, ?_, ?_⟩
  · rw [init_mines_eq, hfold1]
    show List.foldlM _ m1 _ = _
    exact hfold2
  · exact hmem2 p hpmem
  · intro hcon
    have h2 : ((m2.count_mines_around_point p : Nat) : Int) = VALUE_MINE := hcon
    rw [VALUE_MINE] at h2
    omega
  · show (0 : Int) ≤ ((m2.count_mines_around_point p : Nat) : Int)
    omega
  · rfl

theorem init_mines_restricted_spec_witness :
    (make (2, 2) 1).inB (0, 0) = true ∧
    (∃ m' c, (make (2, 2) 1).init_mines [(0, 0)]
        ((make (2, 2) 1).iter_points.filter fun q => q ≠ (0, 0)) = Except.ok m' ∧
      m'.getItem (0, 0) = .ok c ∧ c.value ≠ VALUE_MINE ∧ 0 ≤ c.value ∧
      c.value = (m'.count_mines_around_point (0, 0) : Int)) :=
  ⟨by decide,
   init_mines_restricted_spec (make (2, 2) 1) (0, 0)
     ((make (2, 2) 1).iter_points.filter fun q => q ≠ (0, 0)) (by decide)
     (List.Perm.refl _)⟩

/-! ## Claim theorems: queries and indexed access -/

/-- Claim C1 (modelled from the spec, since `is_fully_revealed` is called by
`main.py` but missing from `api.py`): `is_fully_revealed` returns true
if and only if every in-bounds cell that is not a mine is visible. -/
theorem is_fully_revealed_iff (m : Minefield) :
    m.is_fully_revealed = true ↔
      ∀ q c, m.getItem q = .ok c → c.value ≠ VALUE_MINE → c.visible = true := by
  unfold is_fully_revealed
  rw [List.all_eq_true]
  constructor
  · intro h q c hq hmine
    obtain ⟨row, hrow, hc⟩ := cell_mem_of_getItem_ok hq
    have h2 := h row hrow
    rw [List.all_eq_true] at h2
    have h3 := h2 c hc
    simp only [Bool.or_eq_true, beq_iff_eq] at h3
    rcases h3 with h' | h'
    · exact absurd h' hmine
    · exact h'
  · intro h row hrow
    rw [List.all_eq_true]
    intro c hc
    obtain ⟨y, hy⟩ := List.mem_iff_get?.mp hrow
    obtain ⟨x, hx⟩ := List.mem_iff_get?.mp hc
    have hgi : m.getItem (Int.ofNat x, Int.ofNat y) = .ok c := by
      apply getItem_ok_iff.mpr
      refine ⟨by simp [Int.ofNat_eq_coe], by simp [Int.ofNat_eq_coe], row, ?_, ?_⟩
      · show m.cells.get? (Int.ofNat y).toNat = some row
        have e : (Int.ofNat y).toNat = y := rfl
        rw [e]
        exact hy
      · show row.get? (Int.ofNat x).toNat = some c
        have e : (Int.ofNat x).toNat = x := rfl
        rw [e]
        exact hx
    by_cases hm : c.value = VALUE_MINE
    · simp [hm]
    · simp [h _ c hgi hm]

/-- Claim C2: on a rectangular `w × h` grid, `getItem` returns the stored
cell exactly on the in-bounds coordinates and raises `IndexError`
exactly on the out-of-bounds ones (negative or at/past a dimension). -/
theorem getItem_bounds_spec (m : Minefield) (w h : Nat) (hr : m.rect w h) (x y : Int) :
    ((∃ c, m.getItem (x, y) = Except.ok c) ↔
      (0 ≤ x ∧ 0 ≤ y ∧ x < (w : Int) ∧ y < (h : Int))) ∧
    ((∃ e, m.getItem (x, y) = Except.error e) ↔
      ¬(0 ≤ x ∧ 0 ≤ y ∧ x < (w : Int) ∧ y < (h : Int))) ∧
    (∀ c, m.getItem (x, y) = Except.ok c →
      (m.cells.getD y.toNat []).get? x.toNat = some c) := by
  obtain ⟨hlen, hrows⟩ := hr
  have main : (∃ c, m.getItem (x, y) = Except.ok c) ↔
      (0 ≤ x ∧ 0 ≤ y ∧ x < (w : Int) ∧ y < (h : Int)) := by
    rw [← inB_eq_true_iff, inB_iff]
    constructor
    · rintro ⟨h1, h2, row, hrow, hlt⟩
      have hy : ((x, y).2).toNat < m.cells.length := by
        by_contra hge
        rw [List.get?_eq_none.mpr (by omega)] at hrow
        cases hrow
      have hwr : row.length = w := hrows row (List.get?_mem hrow)
      rw [hlen] at hy
      exact ⟨h1, h2, by omega, by omega⟩
    · rintro ⟨h1, h2, hxw, hyh⟩
      cases hrow : m.cells.get? (x, y).2.toNat with
      | none =>
        exfalso
        have := List.get?_eq_none.mp hrow
        rw [hlen] at this
        omega
      | some row =>
        have hwr : row.length = w := hrows row (List.get?_mem hrow)
        exact ⟨h1, h2, row, rfl, by omega⟩
  refine ⟨main, ?_, ?_⟩
  · constructor
    · rintro ⟨e, he⟩ hin
      obtain ⟨c, hc⟩ := main.mpr hin
      rw [he] at hc
      cases hc
    · intro hnin
      cases hg : m.getItem (x, y) with
      | error e => exact ⟨e, rfl⟩
      | ok c => exact absurd (main.mp ⟨c, hg⟩) hnin
  · intro c hc
    obtain ⟨-, -, row, hrow, hget⟩ := getItem_ok_iff.mp hc
    rw [getD_eq_of_get? hrow]
    exact hget

theorem getItem_bounds_spec_witness :
    (∃ e, (make (5, 5) 0).getItem (-1, 0) = Except.error e) ∧
    (∃ e, (make (5, 5) 0).getItem (5, 0) = Except.error e) ∧
    (∃ c, (make (5, 5) 0).getItem (0, 0) = Except.ok c) :=
  ⟨(getItem_bounds_spec (make (5, 5) 0) 5 5 ⟨by decide, by decide⟩ (-1) 0).2.1.mpr
     (by decide),
   (getItem_bounds_spec (make (5, 5) 0) 5 5 ⟨by decide, by decide⟩ 5 0).2.1.mpr
     (by decide),
   (getItem_bounds_spec (make (5, 5) 0) 5 5 ⟨by decide, by decide⟩ 0 0).1.mpr
     (by decide)⟩

/-- Claim C3 (the code, not the claim): `__setitem__` performs no bounds
check of its own, so on a 2×2 grid `set((-1, 0), cell)` is not
rejected — the negative index wraps around Python-style and silently
overwrites the cell at `(1, 0)` — while `set((2, 0), cell)` does raise
`IndexError` from the underlying list. -/
theorem setItem_negative_wraps :
    (make (2, 2) 0).setItem (-1, 0) ⟨5, false, false⟩ =
      Except.ok { cells := [[⟨0, false, false⟩, ⟨5, false, false⟩],
        [⟨0, false, false⟩, ⟨0, false, false⟩]], n_mines := 0 } ∧
    (make (2, 2) 0).setItem (2, 0) ⟨5, false, false⟩ = Except.error "IndexError" :=
  ⟨by rfl, by rfl⟩

end Minefield

end Minesweeper
